import Mathlib

/-!
# Verification of the rs-json-parser scanner and tree builder

This file is a shallow embedding of the repository's two components:

* the scanner (`src/tokenizer/mod.rs`): `consume_string`, `consume_int`,
  `consume_frac`, `consume_exponent`, `consume_number`, `consume_keyword`
  and the `Iterator::next` dispatch loop, modelled by `nextToken`;
* the tree builder (`src/parser/mod.rs`): `Parser::parse`,
  `Parser::parse_object`, `Parser::parse_array`, modelled over an explicit
  character list with a fuel argument for termination.

Modelling conventions:

* Rust `char` is Lean `Char`; character class tests are written on
  `Char.toNat` code points (32 = space, 9 = tab, 10 = newline, 123 = left
  brace, 125 = right brace, 91 = left bracket, 93 = right bracket,
  58 = colon, 44 = comma, 34 = double quote, 48..57 = digits, 45 = minus,
  43 = plus, 46 = dot, 101 = lowercase e, 69 = uppercase E,
  97..122 = lowercase letters, 65..90 = uppercase letters), exactly the
  ranges the Rust code matches on.  The Rust code uses `char::is_numeric`
  inside the numeric sub-phases; it is modelled by the ASCII digit range,
  which agrees with it on every ASCII character (and every character the
  claims exercise).
* every `panic!`, failed `assert!` and `Option::unwrap` on `None` is a
  fatal error and is modelled by an `Option`-valued function returning
  `none`;
* Rust `i32` parsing (`str::parse::<i32>`) is modelled by `parseI32`,
  including its range check;
* Rust `f32` fractions are modelled by exact rationals: `".d1..dk"`
  parses to `d1..dk / 10^k`, and the `Display` implementation's
  float-to-shortest-decimal printing is modelled by printing the exact
  decimal expansion with trailing zeros trimmed (and no decimal point for
  an integral value), which is the behaviour Rust's shortest-roundtrip
  formatting exhibits on these values and that the repository's own
  `tests_display` suite pins down;
* `IndexMap` is modelled by an association list with `insertKV`, which
  overwrites the value of an existing key in place and appends a fresh
  key at the end — `IndexMap::insert`'s documented behaviour.
-/

/-! ## Decimal digit strings -/

/-- The character for the decimal digit `n` (`n < 10`): code point `48 + n`. -/
def digitChar (n : Nat) : Char := Char.ofNat (48 + n)

/-- The numeric value of a string of decimal digit characters, most
significant first (how `str::parse` reads an all-digit string). -/
def digitsVal (ds : List Char) : Nat :=
  ds.foldl (fun a c => a * 10 + (c.toNat - 48)) 0

/-- Is `c` an ASCII decimal digit (Rust's `'0'..='9'` range)? -/
def isDigitChar (c : Char) : Bool := 48 ≤ c.toNat && c.toNat ≤ 57

/-- All characters are ASCII decimal digits. -/
def allDigits (ds : List Char) : Bool := ds.all isDigitChar

/-- Decimal digits of `n`, most significant first, via the auxiliary fuel
`fuel ≥ n`; structural in the fuel so that it evaluates by reduction. -/
def natDigitsF : Nat → Nat → List Char
  | 0, n => [digitChar n]
  | fuel + 1, n => if n < 10 then [digitChar n] else natDigitsF fuel (n / 10) ++ [digitChar (n % 10)]

/-- Decimal digits of `n`, most significant first (`"0"` for `0`). -/
def natDigits (n : Nat) : List Char := natDigitsF n n

/-! ## The scanner's data model (`src/tokenizer/mod.rs`) -/

/-- `Number`: the literal-preserving numeric token.  `int` is the Rust
`i32` integer part (modelled in `ℤ`; every value the scanner produces is
in `i32` range), `frac` the optional `f32` fractional magnitude (modelled
as an exact rational) and `exponent` the optional `i32` exponent. -/
structure Number where
  int : Int
  frac : Option ℚ
  exponent : Option Int
deriving DecidableEq

/-- `JToken`: one lexical unit. -/
inductive JToken where
  | leftBrace
  | rightBrace
  | leftBracket
  | rightBracket
  | collon
  | comma
  | null
  | bool (b : Bool)
  | number (n : Number)
  | string (s : String)
deriving DecidableEq

/-- Smallest `i32` value. -/
def i32Min : Int := -2147483648

/-- Largest `i32` value. -/
def i32Max : Int := 2147483647

/-- Rust's `str::parse::<i32>`: an optional sign followed by at least one
digit, with the result required to fit in `i32`; anything else fails. -/
def parseI32 (s : List Char) : Option Int :=
  match s with
  | c :: ds =>
    if c.toNat = 43 then
      if ds ≠ [] ∧ allDigits ds ∧ (digitsVal ds : Int) ≤ i32Max then some (digitsVal ds) else none
    else if c.toNat = 45 then
      if ds ≠ [] ∧ allDigits ds ∧ (digitsVal ds : Int) ≤ -i32Min then some (-(digitsVal ds : Int))
      else none
    else
      if allDigits (c :: ds) ∧ (digitsVal (c :: ds) : Int) ≤ i32Max then some (digitsVal (c :: ds))
      else none
  | [] => none

/-! ## The scanner (`Tokenizer`) -/

/-- The loop inside `Tokenizer::consume_string`: copy characters verbatim
until the closing quote (code point 34); `none` models the
`panic!("unclosed string.")` on end of input. -/
def consume_string_loop : List Char → Option (List Char × List Char)
  | [] => none
  | c :: rest =>
    if c.toNat = 34 then some ([], rest)
    else
      match consume_string_loop rest with
      | none => none
      | some (s, r) => some (c :: s, r)

/-- `Tokenizer::consume_string`: assert the opening quote, then copy until
the closing quote.  `none` models either failed assertion/panic. -/
def consume_string (cs : List Char) : Option (JToken × List Char) :=
  match cs with
  | c :: rest =>
    if c.toNat = 34 then
      match consume_string_loop rest with
      | none => none
      | some (s, r) => some (.string ⟨s⟩, r)
    else none
  | [] => none

/-- The accumulation loop shared by `Tokenizer::consume_int` and the tail
of `Tokenizer::consume_exponent`: consume an optional leading sign and
following digits into `acc`; a sign in non-leading position is the
`panic!("invalid sign position.")`, modelled by `none`. -/
def consume_int_loop : List Char → List Char → Option (List Char × List Char)
  | acc, [] => some (acc, [])
  | acc, c :: rest =>
    if c.toNat = 45 ∨ c.toNat = 43 then
      if acc.isEmpty then consume_int_loop (acc ++ [c]) rest else none
    else if isDigitChar c then consume_int_loop (acc ++ [c]) rest
    else some (acc, c :: rest)

/-- `Tokenizer::consume_int`: accumulate `sign? digits*` and parse as
`i32`, defaulting to `0` on parse failure (`unwrap_or(0)`). -/
def consume_int (cs : List Char) : Option (Int × List Char) :=
  match consume_int_loop [] cs with
  | none => none
  | some (n, rest) => some ((parseI32 n).getD 0, rest)

/-- Greedily take leading ASCII digits. -/
def takeDigits : List Char → List Char × List Char
  | [] => ([], [])
  | c :: rest =>
    if isDigitChar c then
      let (ds, r) := takeDigits rest
      (c :: ds, r)
    else ([], c :: rest)

/-- Parsing `"." ++ ds` as an `f32` fraction: fails exactly when no digit
follows the dot, and otherwise denotes `ds / 10 ^ |ds|`.  The source's
`str::parse::<f32>` rounds this decimal to the nearest binary32 value
(`roundF32` below models that rounding); this definition keeps the exact
decimal, which coincides with the `f32` at every concrete input the
claims proved with it use. -/
def parseFrac (ds : List Char) : Option ℚ :=
  if ds = [] then none else some (Rat.divInt (digitsVal ds) (10 ^ ds.length))

/-- `Tokenizer::consume_frac`: only engaged when the next character is a
dot (code point 46); never a fatal error. -/
def consume_frac : List Char → Option ℚ × List Char
  | [] => (none, [])
  | c :: rest =>
    if c.toNat = 46 then
      let (ds, r) := takeDigits rest
      (parseFrac ds, r)
    else (none, c :: rest)

/-- `Tokenizer::consume_exponent`: only engaged when the next character is
`e`/`E` (101/69); then the sign-and-digit loop, parsed as `i32` with a
failed parse treated as an absent exponent (`.ok()`). -/
def consume_exponent : List Char → Option (Option Int × List Char)
  | [] => some (none, [])
  | c :: rest =>
    if c.toNat = 101 ∨ c.toNat = 69 then
      match consume_int_loop [] rest with
      | none => none
      | some (n, r) => some (parseI32 n, r)
    else some (none, c :: rest)

/-- `Tokenizer::consume_number`: the three sequential sub-phases. -/
def consume_number (cs : List Char) : Option (Number × List Char) :=
  match consume_int cs with
  | none => none
  | some (i, r1) =>
    let (f, r2) := consume_frac r1
    match consume_exponent r2 with
    | none => none
    | some (e, r3) => some (⟨i, f, e⟩, r3)

/-- Greedily take leading lowercase ASCII letters (97..122), as
`char::is_ascii_lowercase` does. -/
def takeLower : List Char → List Char × List Char
  | [] => ([], [])
  | c :: rest =>
    if 97 ≤ c.toNat ∧ c.toNat ≤ 122 then
      let (s, r) := takeLower rest
      (c :: s, r)
    else ([], c :: rest)

/-- `Tokenizer::consume_keyword`: accumulate lowercase letters and match
against exactly `null` / `true` / `false`; anything else is the
`panic!("invalid keyword")`. -/
def consume_keyword (cs : List Char) : Option (JToken × List Char) :=
  let (s, rest) := takeLower cs
  if s = "null".data then some (.null, rest)
  else if s = "true".data then some (.bool true, rest)
  else if s = "false".data then some (.bool false, rest)
  else none

/-- The outcome of asking the scanner for one token: a lexing panic, end
of input, or a token together with the unconsumed remainder. -/
inductive LexOut where
  | err
  | eof
  | tok (t : JToken) (rest : List Char)
deriving DecidableEq

/-- `Iterator::next` for `Tokenizer`: skip whitespace (space/tab/newline),
then dispatch on the next character exactly as the Rust `match` does;
`.err` models the `panic!("cannot parse input")` and the panics inside the
scanning modes. -/
def nextToken : List Char → LexOut
  | [] => .eof
  | c :: rest =>
    if c.toNat = 32 ∨ c.toNat = 9 ∨ c.toNat = 10 then nextToken rest
    else if c.toNat = 123 then .tok .leftBrace rest
    else if c.toNat = 125 then .tok .rightBrace rest
    else if c.toNat = 91 then .tok .leftBracket rest
    else if c.toNat = 93 then .tok .rightBracket rest
    else if c.toNat = 58 then .tok .collon rest
    else if c.toNat = 44 then .tok .comma rest
    else if c.toNat = 34 then
      match consume_string (c :: rest) with
      | some (t, r) => .tok t r
      | none => .err
    else if isDigitChar c ∨ c.toNat = 45 ∨ c.toNat = 43 ∨ c.toNat = 46 then
      match consume_number (c :: rest) with
      | some (n, r) => .tok (.number n) r
      | none => .err
    else if (97 ≤ c.toNat ∧ c.toNat ≤ 122) ∨ (65 ≤ c.toNat ∧ c.toNat ≤ 90) then
      match consume_keyword (c :: rest) with
      | some (t, r) => .tok t r
      | none => .err
    else .err

/-! ## The tree builder (`src/parser/mod.rs`) -/

/-- `JValue`: the recursive tagged value tree.  Objects are ordered
association lists (the `IndexMap` model). -/
inductive JValue where
  | null
  | bool (b : Bool)
  | string (s : String)
  | number (n : Number)
  | array (xs : List JValue)
  | object (m : List (String × JValue))

/-- `IndexMap::insert` on the association-list model: overwrite the value
of an existing key in place (keeping its position), append a new key. -/
def insertKV : List (String × JValue) → String → JValue → List (String × JValue)
  | [], k, v => [(k, v)]
  | (k', v') :: tl, k, v =>
    if k' = k then (k', v) :: tl else (k', v') :: insertKV tl k v

mutual

/-- `Parser::parse_object`: consume the `{` (the caller only peeked at
it), then run the pair loop.  `none` models every panic; the fuel is the
termination budget, strictly larger than the number of parser steps any
input of the given length can take. -/
def parse_object : Nat → List Char → Option (JValue × List Char)
  | 0, _ => none
  | fuel + 1, cs =>
    match nextToken cs with
    | .tok .leftBrace r => parse_object_loop fuel [] r
    | _ => none

/-- The value dispatch both loops of the Rust parser perform on their
peeked token (the two `match` expressions are identical): a scalar token
is consumed directly, `{`/`[` recurse into `parse_object`/`parse_array`
from the unconsumed position, and any other lookahead (including end of
input and a lexing panic) is the `panic!("invalid json.")`. -/
def parse_value : Nat → List Char → Option (JValue × List Char)
  | 0, _ => none
  | fuel + 1, cs =>
    match nextToken cs with
    | .tok .null r => some (.null, r)
    | .tok (.bool b) r => some (.bool b, r)
    | .tok (.string s) r => some (.string s, r)
    | .tok (.number n) r => some (.number n, r)
    | .tok .leftBrace _ => parse_object fuel cs
    | .tok .leftBracket _ => parse_array fuel cs
    | _ => none

/-- The body of `parse_object`'s `loop`: on `}` terminate; otherwise read
a `String` key, a `:`, a value, insert the pair, and check the
separator. -/
def parse_object_loop : Nat → List (String × JValue) → List Char → Option (JValue × List Char)
  | 0, _, _ => none
  | fuel + 1, m, cs =>
    match nextToken cs with
    | .tok .rightBrace r => some (.object m, r)
    | .tok (.string k) r1 =>
      match nextToken r1 with
      | .tok .collon r2 =>
        match parse_value fuel r2 with
        | some (v, r3) => parse_object_sep fuel (insertKV m k v) r3
        | none => none
      | _ => none
    | _ => none

/-- The separator check after an object pair: `,` is consumed and the loop
continues; `}` is left for the loop head to consume; anything else
(including end of input) is the `panic!("invalid object")`. -/
def parse_object_sep : Nat → List (String × JValue) → List Char → Option (JValue × List Char)
  | 0, _, _ => none
  | fuel + 1, m, cs =>
    match nextToken cs with
    | .tok .comma r => parse_object_loop fuel m r
    | .tok .rightBrace _ => parse_object_loop fuel m cs
    | _ => none

/-- `Parser::parse_array`: consume the `[`, then run the element loop. -/
def parse_array : Nat → List Char → Option (JValue × List Char)
  | 0, _ => none
  | fuel + 1, cs =>
    match nextToken cs with
    | .tok .leftBracket r => parse_array_loop fuel [] r
    | _ => none

/-- The body of `parse_array`'s `loop`: on `]` terminate; otherwise read a
value, push it, and check the separator. -/
def parse_array_loop : Nat → List JValue → List Char → Option (JValue × List Char)
  | 0, _, _ => none
  | fuel + 1, arr, cs =>
    match nextToken cs with
    | .tok .rightBracket r => some (.array arr, r)
    | _ =>
      match parse_value fuel cs with
      | some (v, r3) => parse_array_sep fuel (arr ++ [v]) r3
      | none => none

/-- The separator check after an array element: `,` is consumed and the
loop continues; `]` is left for the loop head; anything else is the
`panic!("invalid array.")`. -/
def parse_array_sep : Nat → List JValue → List Char → Option (JValue × List Char)
  | 0, _, _ => none
  | fuel + 1, arr, cs =>
    match nextToken cs with
    | .tok .comma r => parse_array_loop fuel arr r
    | .tok .rightBracket _ => parse_array_loop fuel arr cs
    | _ => none

end

/-- `Parser::parse`: peek the first token and require `{` or `[`; a bare
scalar, end of input, or a lexing panic is fatal (`none`).  The fuel
`2 * |cs| + 2` exceeds the parser-step budget of any run on `cs`. -/
def parse (cs : List Char) : Option (JValue × List Char) :=
  match nextToken cs with
  | .tok .leftBrace _ => parse_object (2 * cs.length + 2) cs
  | .tok .leftBracket _ => parse_array (2 * cs.length + 2) cs
  | _ => none

/-! ## The `Display` implementation for `Number`

Rust renders the combined value `int ± frac` as an `f32` with the shortest
decimal that round-trips; on the exact-rational model this is the exact
decimal expansion with trailing zeros trimmed and no decimal point for an
integral value.  `findK` computes the number of fractional digits (the
least `k` with `den ∣ 10^k`), searching upward with fuel `den`, which a
lemma below shows is always enough for a finite decimal. -/

/-- Search upward from `i` for the first exponent `j` with
`10 ^ j % x.den = 0`, i.e. the first `j` making `x * 10 ^ j` integral. -/
def findKF : Nat → Nat → ℚ → Nat
  | 0, i, _ => i
  | fuel + 1, i, x => if 10 ^ i % x.den = 0 then i else findKF fuel (i + 1) x

/-- The number of digits after the decimal point in the shortest decimal
form of `x`. -/
def findK (x : ℚ) : Nat := findKF x.den 0 x

/-- Shortest decimal form of a nonnegative rational with a finite decimal
expansion: integer digits, and — unless the value is integral — a dot
(code point 46) and exactly `findK x` fractional digits, zero-padded on
the left. -/
def renderPos (x : ℚ) : List Char :=
  let k := findK x
  if k = 0 then natDigits x.num.toNat
  else
    let N := (x.num * ((10 ^ k / x.den : Nat) : Int)).toNat
    natDigits (N / 10 ^ k) ++
      '.' :: (List.replicate (k - (natDigits (N % 10 ^ k)).length) (digitChar 0) ++
        natDigits (N % 10 ^ k))

/-- Rust's `Display` for an `f32` value, idealized to an exact rational:
a minus sign for a negative value, then the decimal expansion of the
magnitude.  It agrees with the true shortest-round-trip formatter
(`displayF32` below) whenever that expansion is itself shortest, as at
every concrete input used here. -/
def renderFloat (v : ℚ) : List Char :=
  if v < 0 then '-' :: renderPos (-v) else renderPos v

/-- Rust's `Display` for an `i32`. -/
def renderInt (i : Int) : List Char :=
  if i < 0 then '-' :: natDigits i.natAbs else natDigits i.natAbs

/-- Rust's `{:+}` format for an `i32`: always an explicit sign. -/
def renderSigned (i : Int) : List Char :=
  (if 0 ≤ i then '+' else '-') :: natDigits i.natAbs

/-- The combined value `int + frac` for nonnegative `int`, `int - frac`
otherwise, computed on numerator and denominator (extensionally the
rational `int ± frac`; a lemma below says so).  This is the idealization
of `Display`'s `(*int as f32) ± fr` with the two `f32` operations taken
exact; the faithful, correctly rounded combination is `fcombineF32`
below, and the difference is what refutes claim C8. -/
def combine (i : Int) (fr : ℚ) : ℚ :=
  if 0 ≤ i then Rat.divInt (i * fr.den + fr.num) fr.den
  else Rat.divInt (i * fr.den - fr.num) fr.den

/-- `impl Display for Number` (`src/tokenizer/mod.rs`): the four cases on
presence of fraction and exponent, with `E` and a forced exponent sign. -/
def Number.render (n : Number) : List Char :=
  match n.frac, n.exponent with
  | some fr, some ex => renderFloat (combine n.int fr) ++ 'E' :: renderSigned ex
  | some fr, none => renderFloat (combine n.int fr)
  | none, some ex => renderInt n.int ++ 'E' :: renderSigned ex
  | none, none => renderInt n.int

/-- The effective numeric value of a `Number`: integer plus-or-minus
fraction (by the integer's sign) scaled by `10^exponent` (§3's
invariant). -/
def effValue (n : Number) : ℚ :=
  (if 0 ≤ n.int then (n.int : ℚ) + n.frac.getD 0 else (n.int : ℚ) - n.frac.getD 0) *
    10 ^ n.exponent.getD 0

/-! ## A generator of object/array literals

For the universal key-order claim we quantify over abstract literal
descriptions and render them to canonical (whitespace-free) document
text.  `LitMap` is a literal object body: keys in source order, each with
an arbitrary nested literal value. -/

mutual

/-- An abstract JSON literal: the scalar forms the scanner can produce
plus nested arrays and objects. -/
inductive Lit where
  | null
  | bool (b : Bool)
  | str (s : List Char)
  | num (n : Nat)
  | arr (els : LitSeq)
  | obj (kvs : LitMap)

/-- The element list of an array literal. -/
inductive LitSeq where
  | nil
  | cons (hd : Lit) (tl : LitSeq)

/-- The key/value pair list of an object literal, in source order. -/
inductive LitMap where
  | nil
  | cons (k : List Char) (v : Lit) (tl : LitMap)

end

/-- The double-quote character (code point 34). -/
def quoteChar : Char := Char.ofNat 34

/-- The left-brace character (code point 123). -/
def lbraceChar : Char := Char.ofNat 123

/-- The right-brace character (code point 125). -/
def rbraceChar : Char := Char.ofNat 125

mutual

/-- Render a literal to document text (no whitespace). -/
def renderLit : Lit → List Char
  | .null => "null".data
  | .bool true => "true".data
  | .bool false => "false".data
  | .str s => quoteChar :: s ++ [quoteChar]
  | .num n => natDigits n
  | .arr els => '[' :: renderSeq els
  | .obj kvs => lbraceChar :: renderMap kvs

/-- Render an array body: elements separated by commas, then `]`. -/
def renderSeq : LitSeq → List Char
  | .nil => [']']
  | .cons v .nil => renderLit v ++ [']']
  | .cons v (.cons w tl) => renderLit v ++ ',' :: renderSeq (.cons w tl)

/-- Render an object body: quoted key, colon, value, separated by commas,
then the closing brace. -/
def renderMap : LitMap → List Char
  | .nil => [rbraceChar]
  | .cons k v .nil => quoteChar :: k ++ quoteChar :: ':' :: renderLit v ++ [rbraceChar]
  | .cons k v (.cons k' w tl) =>
      quoteChar :: k ++ quoteChar :: ':' :: renderLit v ++ ',' :: renderMap (.cons k' w tl)

end

/-- Fold `insertKV` over a list of pairs, as `parse_object`'s loop does. -/
def insertAll (m : List (String × JValue)) (ps : List (String × JValue)) :
    List (String × JValue) :=
  ps.foldl (fun acc p => insertKV acc p.1 p.2) m

mutual

/-- The value a literal parses to. -/
def denoteLit : Lit → JValue
  | .null => .null
  | .bool b => .bool b
  | .str s => .string ⟨s⟩
  | .num n => .number ⟨n, none, none⟩
  | .arr els => .array (denoteSeq els)
  | .obj kvs => .object (insertAll [] (denoteMapRaw kvs))

/-- The values of an element list. -/
def denoteSeq : LitSeq → List JValue
  | .nil => []
  | .cons v tl => denoteLit v :: denoteSeq tl

/-- The key/value pairs of an object body, in source order, values
denoted. -/
def denoteMapRaw : LitMap → List (String × JValue)
  | .nil => []
  | .cons k v tl => ((⟨k⟩ : String), denoteLit v) :: denoteMapRaw tl

end

mutual

/-- Well-formedness of a literal: string contents and keys contain no
double quote, and numbers fit in `i32`. -/
def wfLit : Lit → Bool
  | .null => true
  | .bool _ => true
  | .str s => s.all (fun c => c.toNat ≠ 34)
  | .num n => decide ((n : Int) ≤ i32Max)
  | .arr els => wfSeq els
  | .obj kvs => wfMap kvs

/-- Well-formedness of an element list. -/
def wfSeq : LitSeq → Bool
  | .nil => true
  | .cons v tl => wfLit v && wfSeq tl

/-- Well-formedness of an object body. -/
def wfMap : LitMap → Bool
  | .nil => true
  | .cons k v tl => k.all (fun c => c.toNat ≠ 34) && wfLit v && wfMap tl

end

mutual

/-- Parser fuel sufficient for `parse_value` on a rendered literal. -/
def fuelLit : Lit → Nat
  | .arr els => 2 + fuelSeq els
  | .obj kvs => 2 + fuelMap kvs
  | _ => 1

/-- Parser fuel sufficient for `parse_array_loop` on a rendered element
list. -/
def fuelSeq : LitSeq → Nat
  | .nil => 1
  | .cons v tl => 1 + max (fuelLit v) (2 + fuelSeq tl)

/-- Parser fuel sufficient for `parse_object_loop` on a rendered object
body. -/
def fuelMap : LitMap → Nat
  | .nil => 1
  | .cons _ v tl => 1 + max (fuelLit v) (2 + fuelMap tl)

end

/-- The keys of an object body, in source order. -/
def mapKeys : LitMap → List String
  | .nil => []
  | .cons k _ tl => (⟨k⟩ : String) :: mapKeys tl

/-- Is `c` a sign character (`-` or `+`, code points 45/43)? -/
def isSignChar (c : Char) : Bool := c.toNat = 45 || c.toNat = 43

/-- Is `c` the dot (code point 46)? -/
def isDotChar (c : Char) : Bool := c.toNat = 46

/-- Is `c` an exponent marker (`e`/`E`, code points 101/69)? -/
def isExpChar (c : Char) : Bool := c.toNat = 101 || c.toNat = 69

/-- Does the head of the list satisfy `p` (vacuously true when empty)?
Used to say at which character a greedy scanning phase stops. -/
def headSat (p : Char → Bool) : List Char → Bool
  | [] => true
  | c :: _ => p c

/-- Can a character extend a number literal (so that the scan does not
stop at it)?  Union of the digit, sign, dot and exponent classes. -/
def isNumChar (c : Char) : Bool :=
  isDigitChar c || isSignChar c || isDotChar c || isExpChar c

/-! ## A faithful model of the `f32` steps in `Display`

`Display for Number` prints `(*int as f32) + fr` (or `- fr`) — an IEEE 754
binary32 computation — and Rust's `{}` float formatting prints the
shortest decimal that reads back to the same `f32`.  The definitions
below model that pipeline exactly: `roundF32` is round-to-nearest,
ties-to-even onto the binary32 grid, `fcombineF32` is the combined value
the `Display` arm computes, and `displayF32` is the shortest-round-trip
formatter.  All arithmetic is carried out on numerators and denominators
(rationals are built only through `Rat.divInt`) so that every definition
evaluates on concrete inputs. -/

/-- Base-2 logarithm of a natural number (floor), with explicit fuel;
`log2F n n` is exact for every `n ≥ 1`. -/
def log2F : Nat → Nat → Nat
  | 0, _ => 0
  | fuel + 1, n => if n ≤ 1 then 0 else log2F fuel (n / 2) + 1

/-- `⌊log2 n⌋` for `n ≥ 1` (and `0` for `n = 0`). -/
def natLog2 (n : Nat) : Nat := log2F n n

/-- `2 ^ e` as an exact rational, for a signed exponent. -/
def pow2Q (e : Int) : ℚ :=
  if 0 ≤ e then Rat.divInt (2 ^ e.toNat) 1 else Rat.divInt 1 (2 ^ (-e).toNat)

/-- `10 ^ e` as an exact rational, for a signed exponent. -/
def pow10Q (e : Int) : ℚ :=
  if 0 ≤ e then Rat.divInt (10 ^ e.toNat) 1 else Rat.divInt 1 (10 ^ (-e).toNat)

/-- `⌊log2 q⌋` for `q > 0` (junk value `0` for `q ≤ 0`): the candidate
from the numerator's and denominator's bit lengths is off by at most one
and is fixed up by a single comparison. -/
def floorLog2 (q : ℚ) : Int :=
  if q ≤ 0 then 0
  else
    let t : Int := (natLog2 q.num.toNat : Int) - (natLog2 q.den : Int)
    if pow2Q t ≤ q then t else t - 1

/-- Round `n / d` to the nearest integer, ties to the even integer
(`d ≠ 0` expected). -/
def rneDiv (n d : Nat) : Nat :=
  let q := n / d
  let r := n % d
  if 2 * r < d then q
  else if d < 2 * r then q + 1
  else if q % 2 = 0 then q else q + 1

/-- The dyadic rational `n * 2 ^ sp`. -/
def dyadic (n : Nat) (sp : Int) : ℚ :=
  if 0 ≤ sp then Rat.divInt ((n : Int) * 2 ^ sp.toNat) 1
  else Rat.divInt (n : Int) (2 ^ (-sp).toNat)

/-- Round a rational to the IEEE 754 binary32 grid, to nearest with ties
to even: the grid spacing is `2 ^ (e - 23)` for a magnitude in the normal
binade `[2 ^ e, 2 ^ (e + 1))` with `-126 ≤ e`, and `2 ^ -149` below
`2 ^ -126` (subnormal range).  `none` models a non-finite result (the
rounded magnitude reaching `2 ^ 128`); the model does not distinguish a
signed zero. -/
def roundF32 (x : ℚ) : Option ℚ :=
  if x = 0 then some 0
  else
    let m : ℚ := if x < 0 then -x else x
    let e : Int := floorLog2 m
    let sp : Int := if e < -126 then -149 else e - 23
    let a : Nat := m.num.toNat
    let b : Nat := m.den
    let num : Nat := if 0 ≤ sp then a else a * 2 ^ (-sp).toNat
    let den : Nat := if 0 ≤ sp then b * 2 ^ sp.toNat else b
    let n : Nat := rneDiv num den
    if 2 ^ (128 - sp).toNat ≤ n then none
    else some (if x < 0 then -(dyadic n sp) else dyadic n sp)

/-- Rust's `as f32` cast of an `i32`: round the integer to the nearest
binary32 value. -/
def intToF32 (i : Int) : Option ℚ := roundF32 (Rat.divInt i 1)

/-- Rational addition computed on numerators and denominators
(extensionally `+`; a lemma below says so). -/
def qadd (x y : ℚ) : ℚ :=
  Rat.divInt (x.num * (y.den : Int) + (x.den : Int) * y.num) ((x.den : Int) * (y.den : Int))

/-- Rational subtraction computed on numerators and denominators
(extensionally `-`; a lemma below says so). -/
def qsub (x y : ℚ) : ℚ :=
  Rat.divInt (x.num * (y.den : Int) - (x.den : Int) * y.num) ((x.den : Int) * (y.den : Int))

/-- Correctly rounded `f32` addition. -/
def faddF32 (x y : ℚ) : Option ℚ := roundF32 (qadd x y)

/-- Correctly rounded `f32` subtraction. -/
def fsubF32 (x y : ℚ) : Option ℚ := roundF32 (qsub x y)

/-- The `f32` value the `Display` arms with a fraction print:
`(*int as f32) + fr` for a nonnegative integer part, `(*int as f32) - fr`
otherwise, every operation correctly rounded. -/
def fcombineF32 (i : Int) (fr : ℚ) : Option ℚ :=
  match intToF32 i with
  | none => none
  | some iv => if 0 ≤ i then faddF32 iv fr else fsubF32 iv fr

/-- `⌊log10 m⌋` by upward search from `e`; the fuel covers the whole
finite `f32` range when starting from `-45`. -/
def floorLog10F : Nat → Int → ℚ → Int
  | 0, e, _ => e
  | fuel + 1, e, m => if pow10Q (e + 1) ≤ m then floorLog10F fuel (e + 1) m else e

/-- `⌊log10 m⌋` for a positive finite `f32` magnitude (the smallest one,
`2 ^ -149`, is above `10 ^ -45`). -/
def floorLog10 (m : ℚ) : Int := floorLog10F 90 (-45) m

/-- `⌊m / 10 ^ j⌋` as a natural number, for `m ≥ 0`. -/
def floorScaled (m : ℚ) (j : Int) : Nat :=
  if 0 ≤ j then m.num.toNat / (m.den * 10 ^ j.toNat)
  else (m.num.toNat * 10 ^ (-j).toNat) / m.den

/-- The decimal value `D * 10 ^ j`. -/
def decValue (D : Nat) (j : Int) : ℚ :=
  if 0 ≤ j then Rat.divInt ((D : Int) * 10 ^ j.toNat) 1
  else Rat.divInt (D : Int) (10 ^ (-j).toNat)

/-- Search for the shortest decimal reading back to the `f32` value `v`:
for `k = 1, 2, ...` significant digits, the two `k`-digit decimals
bracketing `v` at place `j = E - k + 1` are the only candidates that can
read back to `v` (the read-back set is an interval around `v`); among the
candidates that do, the closer one to `v` wins, a tie going to the even
digit string — the choices Rust's shortest-round-trip formatter makes.
Returns the digits and the place value. -/
def shortestF (v : ℚ) (E : Int) : Nat → Nat → Option (Nat × Int)
  | 0, _ => none
  | fuel + 1, k =>
    let j : Int := E - (k : Int) + 1
    let D0 : Nat := floorScaled v j
    let hit0 : Bool := decide (D0 ≠ 0) && decide (roundF32 (decValue D0 j) = some v)
    let hit1 : Bool := decide (roundF32 (decValue (D0 + 1) j) = some v)
    if hit0 && hit1 then
      let twoV : ℚ := Rat.divInt (2 * v.num) (v.den : Int)
      let mid : ℚ := decValue (2 * D0 + 1) j
      if twoV < mid then some (D0, j)
      else if mid < twoV then some (D0 + 1, j)
      else if D0 % 2 = 0 then some (D0, j) else some (D0 + 1, j)
    else if hit0 then some (D0, j)
    else if hit1 then some (D0 + 1, j)
    else shortestF v E fuel (k + 1)

/-- Lay out `D * 10 ^ j` as Rust's `{}` float formatting does (never
scientific notation): trailing zeros for a nonnegative place, otherwise a
decimal point inside or a leading `0.` with zero padding. -/
def renderDec (D : Nat) (j : Int) : List Char :=
  if 0 ≤ j then natDigits D ++ List.replicate j.toNat (digitChar 0)
  else
    let t : Nat := (-j).toNat
    let ds : List Char := natDigits D
    if t < ds.length then ds.take (ds.length - t) ++ '.' :: ds.drop (ds.length - t)
    else '0' :: '.' :: (List.replicate (t - ds.length) (digitChar 0) ++ ds)

/-- Shortest decimal form of a positive finite `f32` value: nine
significant digits always suffice, so the fuel is never exhausted. -/
def displayPosF32 (v : ℚ) : List Char :=
  match shortestF v (floorLog10 v) 12 1 with
  | some (D, j) => renderDec D j
  | none => []

/-- Rust's `{}` formatting of a finite `f32` value: `0` alone, a minus
sign for a negative value, and otherwise the shortest decimal that reads
back to the same `f32`. -/
def displayF32 (v : ℚ) : List Char :=
  if v = 0 then [digitChar 0]
  else if v < 0 then '-' :: displayPosF32 (-v)
  else displayPosF32 v

/-- `impl Display for Number` with the `f32` arithmetic modelled
faithfully: the fraction arms print the correctly rounded `f32` value
`(*int as f32) ± fr` with the shortest-round-trip formatter; `none`
models a non-finite `f32` (never reached in this development).  The
arms without a fraction print the `i32` directly. -/
def Number.renderF32 (n : Number) : Option (List Char) :=
  match n.frac, n.exponent with
  | some fr, some ex =>
    match fcombineF32 n.int fr with
    | none => none
    | some v => some (displayF32 v ++ 'E' :: renderSigned ex)
  | some fr, none =>
    match fcombineF32 n.int fr with
    | none => none
    | some v => some (displayF32 v)
  | none, some ex => some (renderInt n.int ++ 'E' :: renderSigned ex)
  | none, none => some (renderInt n.int)

/-! # Theorems

## The decimal digit-string library -/

theorem digitChar_toNat (n : Nat) (h : n < 10) : (digitChar n).toNat = 48 + n := by
  interval_cases n <;> rfl

theorem digitChar_isDigit (n : Nat) (h : n < 10) : isDigitChar (digitChar n) = true := by
  interval_cases n <;> rfl

theorem digitsVal_foldl (acc : Nat) (b : List Char) :
    b.foldl (fun a c => a * 10 + (c.toNat - 48)) acc = acc * 10 ^ b.length + digitsVal b := by
  induction b generalizing acc with
  | nil => simp [digitsVal]
  | cons c t ih =>
    simp only [List.foldl_cons, List.length_cons, digitsVal] at *
    rw [ih, ih (0 * 10 + (c.toNat - 48))]
    ring

theorem digitsVal_cons (c : Char) (t : List Char) :
    digitsVal (c :: t) = (c.toNat - 48) * 10 ^ t.length + digitsVal t := by
  simp only [digitsVal, List.foldl_cons]
  rw [digitsVal_foldl]
  simp only [digitsVal]
  ring

theorem digitsVal_append (a b : List Char) :
    digitsVal (a ++ b) = digitsVal a * 10 ^ b.length + digitsVal b := by
  simp only [digitsVal, List.foldl_append]
  rw [digitsVal_foldl]
  simp only [digitsVal]

theorem natDigitsF_spec : ∀ fuel n, n ≤ fuel →
    digitsVal (natDigitsF fuel n) = n ∧ allDigits (natDigitsF fuel n) = true := by
  intro fuel
  induction fuel with
  | zero =>
    intro n hn
    interval_cases n
    exact ⟨rfl, rfl⟩
  | succ f ih =>
    intro n hn
    by_cases h10 : n < 10
    · simp only [natDigitsF, if_pos h10]
      refine ⟨?_, ?_⟩
      · rw [digitsVal_cons]
        simp [digitsVal, digitChar_toNat n h10]
      · simp [allDigits, digitChar_isDigit n h10]
    · simp only [natDigitsF, if_neg h10]
      have hlt : n / 10 < n := Nat.div_lt_self (by omega) (by omega)
      obtain ⟨hv, hd⟩ := ih (n / 10) (by omega)
      refine ⟨?_, ?_⟩
      · rw [digitsVal_append, hv, digitsVal_cons]
        simp only [List.length_nil, pow_zero, List.length_cons, pow_one, digitsVal]
        rw [digitChar_toNat _ (Nat.mod_lt _ (by omega))]
        simp [List.foldl_nil]
        omega
      · simp only [allDigits, List.all_append, Bool.and_eq_true] at *
        refine ⟨hd, ?_⟩
        simp [digitChar_isDigit _ (Nat.mod_lt n (show 0 < 10 by omega))]

theorem natDigits_val (n : Nat) : digitsVal (natDigits n) = n :=
  (natDigitsF_spec n n le_rfl).1

theorem natDigits_allDigits (n : Nat) : allDigits (natDigits n) = true :=
  (natDigitsF_spec n n le_rfl).2

theorem natDigitsF_ne_nil (fuel n : Nat) : natDigitsF fuel n ≠ [] := by
  cases fuel with
  | zero => simp [natDigitsF]
  | succ f =>
    simp only [natDigitsF]
    split <;> simp

theorem natDigits_ne_nil (n : Nat) : natDigits n ≠ [] := natDigitsF_ne_nil n n

theorem isDigitChar_toNat {c : Char} (h : isDigitChar c = true) :
    48 ≤ c.toNat ∧ c.toNat ≤ 57 := by
  simpa [isDigitChar] using h

theorem digitsVal_lt (ds : List Char) (h : allDigits ds = true) :
    digitsVal ds < 10 ^ ds.length := by
  induction ds with
  | nil => simp [digitsVal]
  | cons c t ih =>
    simp only [allDigits, List.all_cons, Bool.and_eq_true] at h
    have hc : c.toNat - 48 ≤ 9 := by
      have := isDigitChar_toNat h.1
      omega
    have ht := ih (by simpa [allDigits] using h.2)
    rw [digitsVal_cons]
    calc (c.toNat - 48) * 10 ^ t.length + digitsVal t
        < (c.toNat - 48) * 10 ^ t.length + 10 ^ t.length := by omega
      _ = (c.toNat - 48 + 1) * 10 ^ t.length := by ring
      _ ≤ 10 * 10 ^ t.length := Nat.mul_le_mul_right _ (by omega)
      _ = 10 ^ (c :: t).length := by rw [List.length_cons]; ring

theorem natDigitsF_length_le : ∀ fuel n k, n ≤ fuel → n < 10 ^ k → 1 ≤ k →
    (natDigitsF fuel n).length ≤ k := by
  intro fuel
  induction fuel with
  | zero =>
    intro n k hn _ hk
    interval_cases n
    simpa [natDigitsF] using hk
  | succ f ih =>
    intro n k hn hnk hk
    by_cases h10 : n < 10
    · simpa [natDigitsF, if_pos h10] using hk
    · simp only [natDigitsF, if_neg h10, List.length_append, List.length_cons,
        List.length_nil]
      have hk1 : k ≠ 1 := by
        rintro rfl
        simp [pow_one] at hnk
        omega
      have hdiv : n / 10 < 10 ^ (k - 1) := by
        rw [Nat.div_lt_iff_lt_mul (by omega : (0:Nat) < 10)]
        calc n < 10 ^ k := hnk
          _ = 10 ^ (k - 1) * 10 := by
            rw [← pow_succ]
            congr 1
            omega
      have hlt : n / 10 < n := Nat.div_lt_self (by omega) (by omega)
      have := ih (n / 10) (k - 1) (by omega) hdiv (by omega)
      omega

theorem natDigits_length_le (m k : Nat) (h1 : m < 10 ^ k) (hk : 1 ≤ k) :
    (natDigits m).length ≤ k :=
  natDigitsF_length_le m m k le_rfl h1 hk

theorem digitsVal_replicate_zero (z : Nat) :
    digitsVal (List.replicate z (digitChar 0)) = 0 := by
  induction z with
  | zero => rfl
  | succ m ih =>
    rw [List.replicate_succ, digitsVal_cons, ih, digitChar_toNat 0 (by omega)]
    simp

theorem digitsVal_padZeros (z : Nat) (ds : List Char) :
    digitsVal (List.replicate z (digitChar 0) ++ ds) = digitsVal ds := by
  rw [digitsVal_append, digitsVal_replicate_zero]
  omega

theorem allDigits_padZeros (z : Nat) (ds : List Char) (h : allDigits ds = true) :
    allDigits (List.replicate z (digitChar 0) ++ ds) = true := by
  simp only [allDigits, List.all_append, Bool.and_eq_true]
  refine ⟨?_, h⟩
  simp only [List.all_eq_true]
  intro c hc
  rw [List.eq_of_mem_replicate hc]
  exact digitChar_isDigit 0 (by omega)

/-! ## Scanner stepping lemmas -/

theorem isSignChar_not {c : Char} (h : isSignChar c = false) :
    ¬(c.toNat = 45 ∨ c.toNat = 43) := by
  simpa [isSignChar] using h

theorem isDigitChar_of_digit {c : Char} (h : isDigitChar c = true) :
    ¬(c.toNat = 45 ∨ c.toNat = 43) := by
  have := isDigitChar_toNat h
  omega

theorem consume_int_loop_digits (ds : List Char) : ∀ acc rest, allDigits ds = true →
    (∀ c ∈ rest.head?, isDigitChar c = false ∧ isSignChar c = false) →
    consume_int_loop acc (ds ++ rest) = some (acc ++ ds, rest) := by
  induction ds with
  | nil =>
    intro acc rest _ hstop
    cases rest with
    | nil => simp [consume_int_loop]
    | cons c t =>
      obtain ⟨hd, hs⟩ := hstop c rfl
      simp only [List.nil_append, consume_int_loop, List.append_nil]
      rw [if_neg (isSignChar_not hs), if_neg (by simp [hd])]
  | cons d t ih =>
    intro acc rest hall hstop
    simp only [allDigits, List.all_cons, Bool.and_eq_true] at hall
    simp only [List.cons_append, consume_int_loop, List.append_eq]
    rw [if_neg (isDigitChar_of_digit hall.1), if_pos hall.1]
    rw [ih (acc ++ [d]) rest (by simpa [allDigits] using hall.2) hstop]
    simp

theorem consume_int_loop_sign (c : Char) (rest : List Char) (h : isSignChar c = true) :
    consume_int_loop [] (c :: rest) = consume_int_loop [c] rest := by
  simp only [consume_int_loop]
  rw [if_pos (by simpa [isSignChar] using h)]
  simp

theorem parseI32_digits (ds : List Char) (h : allDigits ds = true) (hne : ds ≠ [])
    (hb : (digitsVal ds : Int) ≤ i32Max) : parseI32 ds = some ((digitsVal ds : Int)) := by
  cases ds with
  | nil => exact absurd rfl hne
  | cons d t =>
    have hd : isDigitChar d = true := by
      simp only [allDigits, List.all_cons, Bool.and_eq_true] at h
      exact h.1
    have := isDigitChar_toNat hd
    simp only [parseI32]
    rw [if_neg (by omega), if_neg (by omega), if_pos ⟨h, hb⟩]

theorem parseI32_neg_digits (ds : List Char) (h : allDigits ds = true) (hne : ds ≠ [])
    (hb : (digitsVal ds : Int) ≤ -i32Min) : parseI32 ('-' :: ds) = some (-(digitsVal ds : Int)) := by
  simp only [parseI32]
  rw [if_neg (by decide), if_pos (show ('-').toNat = 45 by decide), if_pos ⟨hne, h, hb⟩]

theorem consume_int_digits (ds rest : List Char) (hds : allDigits ds = true) (hne : ds ≠ [])
    (hstop : ∀ c ∈ rest.head?, isDigitChar c = false ∧ isSignChar c = false)
    (hb : (digitsVal ds : Int) ≤ i32Max) :
    consume_int (ds ++ rest) = some ((digitsVal ds : Int), rest) := by
  unfold consume_int
  rw [consume_int_loop_digits ds [] rest hds hstop]
  show some ((parseI32 ([] ++ ds)).getD 0, rest) = _
  rw [List.nil_append, parseI32_digits ds hds hne hb]
  rfl

theorem consume_int_neg_digits (ds rest : List Char) (hds : allDigits ds = true) (hne : ds ≠ [])
    (hstop : ∀ c ∈ rest.head?, isDigitChar c = false ∧ isSignChar c = false)
    (hb : (digitsVal ds : Int) ≤ -i32Min) :
    consume_int (('-' :: ds) ++ rest) = some (-(digitsVal ds : Int), rest) := by
  unfold consume_int
  rw [List.cons_append, consume_int_loop_sign '-' (ds ++ rest) rfl,
    consume_int_loop_digits ds ['-'] rest hds hstop]
  show some ((parseI32 (['-'] ++ ds)).getD 0, rest) = _
  rw [List.singleton_append, parseI32_neg_digits ds hds hne hb]
  rfl

theorem takeDigits_spec (ds : List Char) : ∀ rest, allDigits ds = true →
    (∀ c ∈ rest.head?, isDigitChar c = false) →
    takeDigits (ds ++ rest) = (ds, rest) := by
  induction ds with
  | nil =>
    intro rest _ hstop
    cases rest with
    | nil => rfl
    | cons c t =>
      simp only [List.nil_append, takeDigits]
      rw [if_neg (by simp [hstop c rfl])]
  | cons d t ih =>
    intro rest hall hstop
    simp only [allDigits, List.all_cons, Bool.and_eq_true] at hall
    simp only [List.cons_append, takeDigits, List.append_eq]
    rw [if_pos hall.1, ih rest (by simpa [allDigits] using hall.2) hstop]

theorem consume_frac_dot (ds rest : List Char) (hds : allDigits ds = true)
    (hstop : ∀ c ∈ rest.head?, isDigitChar c = false) :
    consume_frac ('.' :: (ds ++ rest)) = (parseFrac ds, rest) := by
  simp only [consume_frac]
  rw [if_pos (by decide), takeDigits_spec ds rest hds hstop]

theorem consume_frac_nodot (cs : List Char) (h : ∀ c ∈ cs.head?, isDotChar c = false) :
    consume_frac cs = (none, cs) := by
  cases cs with
  | nil => rfl
  | cons c t =>
    simp only [consume_frac]
    rw [if_neg (by simpa [isDotChar] using h c rfl)]

theorem consume_exponent_noexp (cs : List Char) (h : ∀ c ∈ cs.head?, isExpChar c = false) :
    consume_exponent cs = some (none, cs) := by
  cases cs with
  | nil => rfl
  | cons c t =>
    simp only [consume_exponent]
    rw [if_neg (by simpa [isExpChar] using h c rfl)]

theorem consume_exponent_sign_digits (e c : Char) (ds rest : List Char)
    (he : isExpChar e = true) (hc : isSignChar c = true) (hds : allDigits ds = true)
    (hstop : ∀ d ∈ rest.head?, isDigitChar d = false ∧ isSignChar d = false) :
    consume_exponent (e :: c :: (ds ++ rest)) = some (parseI32 (c :: ds), rest) := by
  simp only [consume_exponent]
  rw [if_pos (by simpa [isExpChar] using he)]
  rw [show (c :: (ds ++ rest)) = ([c] ++ ds) ++ rest by simp]
  have h1 : consume_int_loop [] (([c] ++ ds) ++ rest) = some ([c] ++ ds, rest) := by
    rw [List.append_assoc, List.singleton_append,
      consume_int_loop_sign c (ds ++ rest) hc]
    exact consume_int_loop_digits ds [c] rest hds hstop
  rw [h1]
  simp

theorem consume_string_loop_closed (s : List Char) : ∀ rest, (∀ c ∈ s, c.toNat ≠ 34) →
    consume_string_loop (s ++ quoteChar :: rest) = some (s, rest) := by
  induction s with
  | nil =>
    intro rest _
    simp [consume_string_loop, quoteChar]
  | cons c t ih =>
    intro rest h
    simp only [List.cons_append, consume_string_loop, List.append_eq]
    rw [if_neg (h c (by simp)), ih rest (fun d hd => h d (by simp [hd]))]

theorem consume_string_loop_no_quote : ∀ cs s r, consume_string_loop cs = some (s, r) →
    ∀ c ∈ s, c.toNat ≠ 34 := by
  intro cs
  induction cs with
  | nil => intro s r h; simp [consume_string_loop] at h
  | cons c t ih =>
    intro s r h
    simp only [consume_string_loop] at h
    by_cases hq : c.toNat = 34
    · rw [if_pos hq] at h
      simp only [Option.some.injEq, Prod.mk.injEq] at h
      obtain ⟨rfl, rfl⟩ := h
      intro d hd
      simp at hd
    · rw [if_neg hq] at h
      cases hrec : consume_string_loop t with
      | none => rw [hrec] at h; simp at h
      | some pr =>
        obtain ⟨s0, r0⟩ := pr
        rw [hrec] at h
        simp only [Option.some.injEq, Prod.mk.injEq] at h
        obtain ⟨rfl, rfl⟩ := h
        intro d hd
        rcases List.mem_cons.1 hd with rfl | hd
        · exact hq
        · exact ih s0 r0 hrec d hd

/-! ## Token-level lemmas -/

theorem quoteChar_toNat : quoteChar.toNat = 34 := rfl

theorem nextToken_quote (c : Char) (cs : List Char) (h : c.toNat = 34) :
    nextToken (c :: cs) =
      (match consume_string (c :: cs) with
       | some (t, r) => .tok t r
       | none => .err) := by
  simp only [nextToken]
  rw [if_neg (by omega), if_neg (by first | omega), if_neg (by omega),
    if_neg (by first | omega), if_neg (by omega), if_neg (by first | omega),
    if_neg (by omega), if_pos h]

theorem nextToken_numDispatch (c : Char) (cs : List Char)
    (h : isDigitChar c = true ∨ c.toNat = 45 ∨ c.toNat = 43 ∨ c.toNat = 46) :
    nextToken (c :: cs) =
      (match consume_number (c :: cs) with
       | some (n, r) => .tok (.number n) r
       | none => .err) := by
  have hb : 48 ≤ c.toNat ∧ c.toNat ≤ 57 ∨ c.toNat = 45 ∨ c.toNat = 43 ∨ c.toNat = 46 := by
    rcases h with h | h
    · exact Or.inl (isDigitChar_toNat h)
    · exact Or.inr h
  simp only [nextToken]
  rw [if_neg (by omega), if_neg (by first | omega), if_neg (by omega),
    if_neg (by first | omega), if_neg (by omega), if_neg (by first | omega),
    if_neg (by omega), if_neg (by first | omega), if_pos h]

theorem nextToken_lower (c : Char) (cs : List Char) (h : 97 ≤ c.toNat ∧ c.toNat ≤ 122) :
    nextToken (c :: cs) =
      (match consume_keyword (c :: cs) with
       | some (t, r) => .tok t r
       | none => .err) := by
  have hd : ¬(isDigitChar c = true ∨ c.toNat = 45 ∨ c.toNat = 43 ∨ c.toNat = 46) := by
    simp only [isDigitChar, Bool.and_eq_true, decide_eq_true_eq, not_or]
    omega
  simp only [nextToken]
  rw [if_neg (by omega), if_neg (by first | omega), if_neg (by omega),
    if_neg (by first | omega), if_neg (by omega), if_neg (by first | omega),
    if_neg (by omega), if_neg (by first | omega), if_neg hd, if_pos (Or.inl h)]

theorem nextToken_lbrace (rest : List Char) :
    nextToken (lbraceChar :: rest) = .tok .leftBrace rest := rfl

theorem nextToken_rbrace (rest : List Char) :
    nextToken (rbraceChar :: rest) = .tok .rightBrace rest := rfl

theorem nextToken_lbracket (rest : List Char) :
    nextToken ('[' :: rest) = .tok .leftBracket rest := rfl

theorem nextToken_rbracket (rest : List Char) :
    nextToken (']' :: rest) = .tok .rightBracket rest := rfl

theorem nextToken_collon (rest : List Char) :
    nextToken (':' :: rest) = .tok .collon rest := rfl

theorem nextToken_comma (rest : List Char) :
    nextToken (',' :: rest) = .tok .comma rest := rfl

theorem nextToken_string_tok (s rest : List Char) (h : ∀ c ∈ s, c.toNat ≠ 34) :
    nextToken (quoteChar :: (s ++ quoteChar :: rest)) = .tok (.string ⟨s⟩) rest := by
  rw [nextToken_quote quoteChar _ quoteChar_toNat]
  simp only [consume_string]
  rw [if_pos quoteChar_toNat, consume_string_loop_closed s rest h]

theorem nextToken_number_digits (n : Nat) (rest : List Char) (hb : (n : Int) ≤ i32Max)
    (hstop : ∀ c ∈ rest.head?, isNumChar c = false) :
    nextToken (natDigits n ++ rest) = .tok (.number ⟨(n : Int), none, none⟩) rest := by
  have hne := natDigits_ne_nil n
  have hall := natDigits_allDigits n
  have hval := natDigits_val n
  have hstop2 : ∀ c ∈ rest.head?, isDigitChar c = false ∧ isSignChar c = false := by
    intro c hc
    have := hstop c hc
    simp only [isNumChar, Bool.or_eq_false_iff] at this
    exact ⟨this.1.1.1, this.1.1.2⟩
  have hstopd : ∀ c ∈ rest.head?, isDotChar c = false := by
    intro c hc
    have := hstop c hc
    simp only [isNumChar, Bool.or_eq_false_iff] at this
    exact this.1.2
  have hstope : ∀ c ∈ rest.head?, isExpChar c = false := by
    intro c hc
    have := hstop c hc
    simp only [isNumChar, Bool.or_eq_false_iff] at this
    exact this.2
  cases hd : natDigits n with
  | nil => exact absurd hd hne
  | cons d t =>
    have hdig : isDigitChar d = true := by
      rw [hd] at hall
      simp only [allDigits, List.all_cons, Bool.and_eq_true] at hall
      exact hall.1
    have hint : consume_int (natDigits n ++ rest) = some ((n : Int), rest) := by
      have := consume_int_digits (natDigits n) rest hall hne hstop2 (by rw [hval]; exact hb)
      rwa [hval] at this
    have hnum : consume_number (natDigits n ++ rest) =
        some (⟨(n : Int), none, none⟩, rest) := by
      simp only [consume_number, hint, consume_frac_nodot rest hstopd,
        consume_exponent_noexp rest hstope]
    rw [hd] at hnum
    rw [List.cons_append] at hnum ⊢
    rw [nextToken_numDispatch d _ (Or.inl hdig), hnum]

theorem takeLower_spec (s : List Char) : ∀ rest, (∀ c ∈ s, 97 ≤ c.toNat ∧ c.toNat ≤ 122) →
    (∀ c ∈ rest.head?, ¬(97 ≤ c.toNat ∧ c.toNat ≤ 122)) →
    takeLower (s ++ rest) = (s, rest) := by
  induction s with
  | nil =>
    intro rest _ hstop
    cases rest with
    | nil => rfl
    | cons c t =>
      simp only [List.nil_append, takeLower]
      rw [if_neg (hstop c rfl)]
  | cons c t ih =>
    intro rest hall hstop
    simp only [List.cons_append, takeLower, List.append_eq]
    rw [if_pos (hall c (by simp)), ih rest (fun d hd => hall d (by simp [hd])) hstop]

theorem lower_range_of_mem_null : ∀ c ∈ "null".data, 97 ≤ c.toNat ∧ c.toNat ≤ 122 := by
  decide

theorem lower_range_of_mem_true : ∀ c ∈ "true".data, 97 ≤ c.toNat ∧ c.toNat ≤ 122 := by
  decide

theorem lower_range_of_mem_false : ∀ c ∈ "false".data, 97 ≤ c.toNat ∧ c.toNat ≤ 122 := by
  decide

theorem nextToken_null (rest : List Char)
    (hstop : ∀ c ∈ rest.head?, ¬(97 ≤ c.toNat ∧ c.toNat ≤ 122)) :
    nextToken ("null".data ++ rest) = .tok .null rest := by
  rw [show ("null".data ++ rest) = 'n' :: ("ull".data ++ rest) from rfl]
  rw [nextToken_lower 'n' _ (by decide)]
  have ht : takeLower ("null".data ++ rest) = ("null".data, rest) :=
    takeLower_spec _ rest lower_range_of_mem_null hstop
  simp only [consume_keyword]
  rw [show ('n' :: ("ull".data ++ rest)) = "null".data ++ rest from rfl, ht]
  rw [if_pos rfl]

theorem nextToken_true (rest : List Char)
    (hstop : ∀ c ∈ rest.head?, ¬(97 ≤ c.toNat ∧ c.toNat ≤ 122)) :
    nextToken ("true".data ++ rest) = .tok (.bool true) rest := by
  rw [show ("true".data ++ rest) = 't' :: ("rue".data ++ rest) from rfl]
  rw [nextToken_lower 't' _ (by decide)]
  have ht : takeLower ("true".data ++ rest) = ("true".data, rest) :=
    takeLower_spec _ rest lower_range_of_mem_true hstop
  simp only [consume_keyword]
  rw [show ('t' :: ("rue".data ++ rest)) = "true".data ++ rest from rfl, ht]
  rw [if_neg (by simp), if_pos rfl]

theorem nextToken_false (rest : List Char)
    (hstop : ∀ c ∈ rest.head?, ¬(97 ≤ c.toNat ∧ c.toNat ≤ 122)) :
    nextToken ("false".data ++ rest) = .tok (.bool false) rest := by
  rw [show ("false".data ++ rest) = 'f' :: ("alse".data ++ rest) from rfl]
  rw [nextToken_lower 'f' _ (by decide)]
  have ht : takeLower ("false".data ++ rest) = ("false".data, rest) :=
    takeLower_spec _ rest lower_range_of_mem_false hstop
  simp only [consume_keyword]
  rw [show ('f' :: ("alse".data ++ rest)) = "false".data ++ rest from rfl, ht]
  rw [if_neg (by simp), if_neg (by simp), if_pos rfl]

/-! ## Concrete claims -/

/-- Claim C1: scanning the document text `-123.456e+3` as a number (the
scanner mode `parse` of a numeric literal dispatches to,
`Tokenizer::consume_number`) produces the `Number` with integer part
`-123`, fraction `0.456` present and exponent `3` present, consuming the
whole text; and rendering that `Number` with the `Display` operation
produces exactly the text `-123.456E+3` — the negative integer combined
with the fraction magnitude by subtraction, and the exponent letter
uppercase with an explicit sign. -/
theorem number_C1_decompose_render :
    consume_number "-123.456e+3".data =
      some (⟨-123, some ((456 : ℚ) / 1000), some 3⟩, []) ∧
    String.mk (Number.render ⟨-123, some ((456 : ℚ) / 1000), some 3⟩) = "-123.456E+3" := by
  have h : (456 : ℚ) / 1000 = Rat.divInt 456 1000 := by
    rw [Rat.divInt_eq_div]
    norm_num
  rw [h]
  exact ⟨rfl, rfl⟩

/-- Claim C2, counterexample: the claim says parsing `[1,]` is a fatal
failure with no `Value` returned; in fact `parse` returns the one-element
array, so the parse result is not a failure. -/
theorem array_C2_trailing_comma_not_rejected :
    parse "[1,]".data ≠ none := by
  intro h
  rw [show parse "[1,]".data = some (.array [.number ⟨1, none, none⟩], []) from rfl] at h
  exact Option.noConfusion h

/-- Claim C2, amended: parsing `[1,]` succeeds and yields the one-element
array `[1]`: the `]` check sits at the top of `parse_array`'s loop, so the
trailing comma is consumed as a separator and the following `]` terminates
the loop normally. -/
theorem array_C2_trailing_comma_accepted :
    parse "[1,]".data = some (.array [.number ⟨1, none, none⟩], []) := rfl

/-- Claim C3: parsing the object document with body `"a":1,"a":2` succeeds
and yields an `Object` containing exactly one key `a`, mapped to the
number `2` (the later value), at the position of the key's first
occurrence. -/
theorem object_C3_duplicate_key :
    parse "\x7b\"a\":1,\"a\":2\x7d".data =
      some (.object [("a", .number ⟨2, none, none⟩)], []) := rfl

/-- Claim C5: the three malformed documents — an object with a value
missing after the colon, an object with the colon missing between key and
value, and a string literal whose input ends before the closing quote —
each cause a fatal failure: `parse` returns no `Value`, and the
unterminated string is already a scanner-level fatal error. -/
theorem error_C5_fatal_documents :
    parse "\x7b\"a\":\x7d".data = none ∧
    parse "\x7b\"a\" 1\x7d".data = none ∧
    parse "\"abc".data = none ∧
    nextToken "\"abc".data = .err :=
  ⟨rfl, rfl, rfl, rfl⟩

/-- Claim C7: scanning the bare literal `.123` succeeds and yields a
number token with integer part `0` (the empty integer phase defaults to
`0`), fraction `0.123` present, and exponent absent, consuming the whole
text. -/
theorem number_C7_bare_dot_leniency :
    consume_number ".123".data = some (⟨0, some ((123 : ℚ) / 1000), none⟩, []) ∧
    nextToken ".123".data = .tok (.number ⟨0, some ((123 : ℚ) / 1000), none⟩) [] := by
  have h : (123 : ℚ) / 1000 = Rat.divInt 123 1000 := by
    rw [Rat.divInt_eq_div]
    norm_num
  rw [h]
  exact ⟨rfl, rfl⟩

/-! ## Claim C6: the entry point accepts only container documents -/

/-- Claim C6: for every input text, `parse` returns a `Value` only when
the first non-whitespace token is `{` or `[`; when the first token is any
scalar token (`Null`, `Bool`, `String`, `Number`) or the token stream is
empty, `parse` is a fatal error and returns no `Value`. -/
theorem parse_C6_top_level_container (cs : List Char) :
    ((∃ v rest, parse cs = some (v, rest)) →
      (∃ r, nextToken cs = .tok .leftBrace r) ∨ (∃ r, nextToken cs = .tok .leftBracket r)) ∧
    (∀ t r, nextToken cs = .tok t r →
      (t = .null ∨ (∃ b, t = .bool b) ∨ (∃ s, t = .string s) ∨ (∃ n, t = .number n)) →
      parse cs = none) ∧
    (nextToken cs = .eof → parse cs = none) := by
  refine ⟨?_, ?_, ?_⟩
  · rintro ⟨v, rest, hv⟩
    unfold parse at hv
    cases h : nextToken cs with
    | err => rw [h] at hv; exact absurd hv (by simp)
    | eof => rw [h] at hv; exact absurd hv (by simp)
    | tok t r =>
      rw [h] at hv
      cases t with
      | leftBrace => exact Or.inl ⟨r, rfl⟩
      | leftBracket => exact Or.inr ⟨r, rfl⟩
      | rightBrace => exact absurd hv (by simp)
      | rightBracket => exact absurd hv (by simp)
      | collon => exact absurd hv (by simp)
      | comma => exact absurd hv (by simp)
      | null => exact absurd hv (by simp)
      | bool b => exact absurd hv (by simp)
      | number n => exact absurd hv (by simp)
      | string s => exact absurd hv (by simp)
  · intro t r h hscalar
    unfold parse
    rw [h]
    rcases hscalar with rfl | ⟨b, rfl⟩ | ⟨s, rfl⟩ | ⟨n, rfl⟩ <;> rfl
  · intro h
    unfold parse
    rw [h]

/-- Claim C6, witness: the scalar document `1` is rejected, and the
accepted document with body `{}` indeed starts with a left brace. -/
theorem parse_C6_witness :
    parse "1".data = none ∧
    ((∃ r, nextToken "\x7b\x7d".data = .tok .leftBrace r) ∨
      (∃ r, nextToken "\x7b\x7d".data = .tok .leftBracket r)) := by
  constructor
  · exact (parse_C6_top_level_container "1".data).2.1 (.number ⟨1, none, none⟩) [] rfl
      (Or.inr (Or.inr (Or.inr ⟨_, rfl⟩)))
  · exact (parse_C6_top_level_container "\x7b\x7d".data).1
      ⟨.object [], [], rfl⟩

/-! ## Claim C10: string tokens never contain a double quote -/

/-- Claim C10: every `String` token the scanner produces has content with
no double-quote character — `consume_string` copies characters verbatim
(backslashes included, with no escape handling) until the first unconsumed
double quote; in particular a string literal containing the two-character
sequence backslash–quote terminates at that quote, with the backslash
stored as the final literal character. -/
theorem string_C10_no_quote_verbatim :
    (∀ cs t r, consume_string cs = some (t, r) →
      ∃ s, t = .string (String.mk s) ∧ ∀ c ∈ s, c.toNat ≠ 34) ∧
    (∀ pre rest, (∀ c ∈ pre, c.toNat ≠ 34) →
      nextToken (quoteChar :: (pre ++ '\\' :: quoteChar :: rest)) =
        .tok (.string ⟨pre ++ ['\\']⟩) rest) := by
  constructor
  · intro cs t r h
    cases cs with
    | nil => simp [consume_string] at h
    | cons c rest =>
      simp only [consume_string] at h
      by_cases hq : c.toNat = 34
      · rw [if_pos hq] at h
        cases hrec : consume_string_loop rest with
        | none => rw [hrec] at h; simp at h
        | some pr =>
          obtain ⟨s0, r0⟩ := pr
          rw [hrec] at h
          simp only [Option.some.injEq, Prod.mk.injEq] at h
          exact ⟨s0, h.1.symm, consume_string_loop_no_quote rest s0 r0 hrec⟩
      · rw [if_neg hq] at h
        simp at h
  · intro pre rest hpre
    have h : ∀ c ∈ pre ++ ['\\'], c.toNat ≠ 34 := by
      intro c hc
      rcases List.mem_append.1 hc with hc | hc
      · exact hpre c hc
      · rw [List.mem_singleton.1 hc]
        decide
    have := nextToken_string_tok (pre ++ ['\\']) rest h
    rwa [List.append_assoc, List.singleton_append] at this

/-- Claim C10, witness: scanning the text `"a\"` (quote, a, backslash,
quote) produces the string token with content `a\` — the backslash is the
final stored character and the following quote closed the literal. -/
theorem string_C10_witness :
    nextToken (quoteChar :: ('a' :: '\\' :: quoteChar :: [])) =
      .tok (.string ⟨['a', '\\']⟩) [] := by
  have := string_C10_no_quote_verbatim.2 ['a'] [] (by decide)
  simpa using this

/-! ## Claim C4 machinery: parsing rendered literals -/

theorem stop_isNumChar {rest : List Char}
    (h : ∀ c ∈ rest.head?, c.toNat = 44 ∨ c.toNat = 93 ∨ c.toNat = 125) :
    ∀ c ∈ rest.head?, isNumChar c = false := by
  intro c hc
  have := h c hc
  simp only [isNumChar, isDigitChar, isSignChar, isDotChar, isExpChar, Bool.or_eq_false_iff,
    Bool.and_eq_false_iff, decide_eq_false_iff_not]
  omega

theorem stop_not_lower {rest : List Char}
    (h : ∀ c ∈ rest.head?, c.toNat = 44 ∨ c.toNat = 93 ∨ c.toNat = 125) :
    ∀ c ∈ rest.head?, ¬(97 ≤ c.toNat ∧ c.toNat ≤ 122) := by
  intro c hc
  have := h c hc
  omega

theorem parse_array_sep_close (fuel : Nat) (acc : List JValue) (rest : List Char)
    (hf : 2 ≤ fuel) : parse_array_sep fuel acc (']' :: rest) = some (.array acc, rest) := by
  obtain ⟨g, rfl⟩ : ∃ g, fuel = g + 1 := ⟨fuel - 1, by omega⟩
  simp only [parse_array_sep, nextToken_rbracket]
  obtain ⟨i, rfl⟩ : ∃ i, g = i + 1 := ⟨g - 1, by omega⟩
  simp only [parse_array_loop, nextToken_rbracket]

theorem parse_array_sep_comma (fuel : Nat) (acc : List JValue) (cs : List Char) :
    parse_array_sep (fuel + 1) acc (',' :: cs) = parse_array_loop fuel acc cs := by
  simp only [parse_array_sep, nextToken_comma]

theorem parse_object_sep_close (fuel : Nat) (m : List (String × JValue)) (rest : List Char)
    (hf : 2 ≤ fuel) : parse_object_sep fuel m (rbraceChar :: rest) = some (.object m, rest) := by
  obtain ⟨g, rfl⟩ : ∃ g, fuel = g + 1 := ⟨fuel - 1, by omega⟩
  simp only [parse_object_sep, nextToken_rbrace]
  obtain ⟨i, rfl⟩ : ∃ i, g = i + 1 := ⟨g - 1, by omega⟩
  simp only [parse_object_loop, nextToken_rbrace]

theorem parse_object_sep_comma (fuel : Nat) (m : List (String × JValue)) (cs : List Char) :
    parse_object_sep (fuel + 1) m (',' :: cs) = parse_object_loop fuel m cs := by
  simp only [parse_object_sep, nextToken_comma]

theorem parse_array_loop_entry (fuel : Nat) (acc : List JValue) (cs : List Char)
    (h : ∀ r, nextToken cs ≠ .tok .rightBracket r) :
    parse_array_loop (fuel + 1) acc cs =
      (match parse_value fuel cs with
       | some (v, r3) => parse_array_sep fuel (acc ++ [v]) r3
       | none => none) := by
  simp only [parse_array_loop]

theorem renderLit_first_token (v : Lit) (X : List Char) (hwf : wfLit v = true)
    (hstop : ∀ c ∈ X.head?, c.toNat = 44 ∨ c.toNat = 93 ∨ c.toNat = 125) :
    ∀ r, nextToken (renderLit v ++ X) ≠ .tok .rightBracket r := by
  intro r
  cases v with
  | null =>
    simp only [renderLit]
    rw [nextToken_null X (stop_not_lower hstop)]
    simp
  | bool b =>
    cases b with
    | true =>
      simp only [renderLit]
      rw [nextToken_true X (stop_not_lower hstop)]
      simp
    | false =>
      simp only [renderLit]
      rw [nextToken_false X (stop_not_lower hstop)]
      simp
  | str s =>
    simp only [renderLit]
    have hq : ∀ c ∈ s, c.toNat ≠ 34 := by
      have := hwf
      simp only [wfLit, List.all_eq_true, decide_eq_true_eq] at this
      exact this
    rw [show ((quoteChar :: s) ++ [quoteChar]) ++ X = quoteChar :: (s ++ quoteChar :: X) by
      simp]
    rw [nextToken_string_tok s X hq]
    simp
  | num n =>
    simp only [renderLit]
    have hb : (n : Int) ≤ i32Max := by
      have := hwf
      simp only [wfLit, decide_eq_true_eq] at this
      exact this
    rw [nextToken_number_digits n X hb (stop_isNumChar hstop)]
    simp
  | arr els =>
    simp only [renderLit, List.cons_append, nextToken_lbracket]
    simp
  | obj kvs =>
    simp only [renderLit, List.cons_append, nextToken_lbrace]
    simp

theorem stop_head_comma (cs : List Char) :
    ∀ c ∈ ((',' :: cs).head?), c.toNat = 44 ∨ c.toNat = 93 ∨ c.toNat = 125 := by
  intro c hc
  simp only [List.head?_cons, Option.mem_def, Option.some.injEq] at hc
  subst hc
  left; rfl

theorem stop_head_rbracket (cs : List Char) :
    ∀ c ∈ ((']' :: cs).head?), c.toNat = 44 ∨ c.toNat = 93 ∨ c.toNat = 125 := by
  intro c hc
  simp only [List.head?_cons, Option.mem_def, Option.some.injEq] at hc
  subst hc
  right; left; rfl

theorem stop_head_rbrace (cs : List Char) :
    ∀ c ∈ ((rbraceChar :: cs).head?), c.toNat = 44 ∨ c.toNat = 93 ∨ c.toNat = 125 := by
  intro c hc
  simp only [List.head?_cons, Option.mem_def, Option.some.injEq] at hc
  subst hc
  right; right; rfl

mutual

theorem parse_value_render : ∀ (l : Lit) (fuel : Nat) (rest : List Char),
    wfLit l = true → fuelLit l ≤ fuel →
    (∀ c ∈ rest.head?, c.toNat = 44 ∨ c.toNat = 93 ∨ c.toNat = 125) →
    parse_value fuel (renderLit l ++ rest) = some (denoteLit l, rest)
  | .null, fuel, rest, _hwf, hf, hstop => by
    obtain ⟨f, rfl⟩ : ∃ f, fuel = f + 1 := ⟨fuel - 1, by simp [fuelLit] at hf; omega⟩
    simp only [renderLit, parse_value, nextToken_null rest (stop_not_lower hstop), denoteLit]
  | .bool true, fuel, rest, _hwf, hf, hstop => by
    obtain ⟨f, rfl⟩ : ∃ f, fuel = f + 1 := ⟨fuel - 1, by simp [fuelLit] at hf; omega⟩
    simp only [renderLit, parse_value, nextToken_true rest (stop_not_lower hstop), denoteLit]
  | .bool false, fuel, rest, _hwf, hf, hstop => by
    obtain ⟨f, rfl⟩ : ∃ f, fuel = f + 1 := ⟨fuel - 1, by simp [fuelLit] at hf; omega⟩
    simp only [renderLit, parse_value, nextToken_false rest (stop_not_lower hstop), denoteLit]
  | .str s, fuel, rest, hwf, hf, _hstop => by
    obtain ⟨f, rfl⟩ : ∃ f, fuel = f + 1 := ⟨fuel - 1, by simp [fuelLit] at hf; omega⟩
    have hq : ∀ c ∈ s, c.toNat ≠ 34 := by
      simpa [wfLit] using hwf
    rw [show renderLit (.str s) ++ rest = quoteChar :: (s ++ quoteChar :: rest) by
      simp [renderLit]]
    simp only [parse_value, nextToken_string_tok s _ hq, denoteLit]
  | .num n, fuel, rest, hwf, hf, hstop => by
    obtain ⟨f, rfl⟩ : ∃ f, fuel = f + 1 := ⟨fuel - 1, by simp [fuelLit] at hf; omega⟩
    have hb : (n : Int) ≤ i32Max := by simpa [wfLit] using hwf
    simp only [renderLit, parse_value,
      nextToken_number_digits n rest hb (stop_isNumChar hstop), denoteLit]
  | .arr els, fuel, rest, hwf, hf, _hstop => by
    have hseq : wfSeq els = true := by simpa [wfLit] using hwf
    have h2 : 2 + fuelSeq els ≤ fuel := by simpa [fuelLit] using hf
    obtain ⟨f, rfl⟩ : ∃ f, fuel = f + 1 := ⟨fuel - 1, by omega⟩
    obtain ⟨g, rfl⟩ : ∃ g, f = g + 1 := ⟨f - 1, by omega⟩
    have hloop := parse_array_loop_render els g [] rest hseq (by omega)
    rw [show renderLit (.arr els) ++ rest = '[' :: (renderSeq els ++ rest) by simp [renderLit]]
    simp only [parse_value, nextToken_lbracket, parse_array, hloop, denoteLit,
      List.nil_append]
  | .obj kvs, fuel, rest, hwf, hf, _hstop => by
    have hmap : wfMap kvs = true := by simpa [wfLit] using hwf
    have h2 : 2 + fuelMap kvs ≤ fuel := by simpa [fuelLit] using hf
    obtain ⟨f, rfl⟩ : ∃ f, fuel = f + 1 := ⟨fuel - 1, by omega⟩
    obtain ⟨g, rfl⟩ : ∃ g, f = g + 1 := ⟨f - 1, by omega⟩
    have hloop := parse_object_loop_render kvs g [] rest hmap (by omega)
    rw [show renderLit (.obj kvs) ++ rest = lbraceChar :: (renderMap kvs ++ rest) by
      simp [renderLit]]
    simp only [parse_value, nextToken_lbrace, parse_object, hloop, denoteLit]

theorem parse_array_loop_render : ∀ (els : LitSeq) (fuel : Nat) (acc : List JValue)
    (rest : List Char), wfSeq els = true → fuelSeq els ≤ fuel →
    parse_array_loop fuel acc (renderSeq els ++ rest) = some (.array (acc ++ denoteSeq els), rest)
  | .nil, fuel, acc, rest, _hwf, hf => by
    obtain ⟨f, rfl⟩ : ∃ f, fuel = f + 1 := ⟨fuel - 1, by simp [fuelSeq] at hf; omega⟩
    rw [show renderSeq .nil ++ rest = ']' :: rest by simp [renderSeq]]
    simp only [parse_array_loop, nextToken_rbracket, denoteSeq, List.append_nil]
  | .cons v .nil, fuel, acc, rest, hwf, hf => by
    have hw : wfLit v = true := by simpa [wfSeq] using hwf
    have hfuel : 1 + max (fuelLit v) (2 + fuelSeq .nil) ≤ fuel := by simpa [fuelSeq] using hf
    have hm1 := le_max_left (fuelLit v) (2 + fuelSeq LitSeq.nil)
    have hm2 := le_max_right (fuelLit v) (2 + fuelSeq LitSeq.nil)
    obtain ⟨f, rfl⟩ : ∃ f, fuel = f + 1 := ⟨fuel - 1, by omega⟩
    rw [show renderSeq (.cons v .nil) ++ rest = renderLit v ++ (']' :: rest) by simp [renderSeq]]
    have hval := parse_value_render v f (']' :: rest) hw (by omega) (stop_head_rbracket rest)
    rw [parse_array_loop_entry f acc _ (renderLit_first_token v _ hw (stop_head_rbracket rest))]
    simp only [hval, parse_array_sep_close f _ rest (by omega), denoteSeq]
  | .cons v (.cons w tl2), fuel, acc, rest, hwf, hf => by
    have hw : wfLit v = true ∧ wfSeq (.cons w tl2) = true := by
      simpa [wfSeq] using And.intro (by simpa [wfSeq] using hwf) trivial
    have hfuel : 1 + max (fuelLit v) (2 + fuelSeq (.cons w tl2)) ≤ fuel := by
      simpa [fuelSeq] using hf
    have hm1 := le_max_left (fuelLit v) (2 + fuelSeq (LitSeq.cons w tl2))
    have hm2 := le_max_right (fuelLit v) (2 + fuelSeq (LitSeq.cons w tl2))
    obtain ⟨f, rfl⟩ : ∃ f, fuel = f + 1 := ⟨fuel - 1, by omega⟩
    obtain ⟨g, rfl⟩ : ∃ g, f = g + 1 := ⟨f - 1, by omega⟩
    rw [show renderSeq (.cons v (.cons w tl2)) ++ rest =
          renderLit v ++ (',' :: (renderSeq (.cons w tl2) ++ rest)) by simp [renderSeq]]
    have hval := parse_value_render v (g + 1) (',' :: (renderSeq (.cons w tl2) ++ rest)) hw.1
      (by omega) (stop_head_comma _)
    have hrec := parse_array_loop_render (.cons w tl2) g (acc ++ [denoteLit v]) rest hw.2
      (by omega)
    rw [parse_array_loop_entry (g + 1) acc _
      (renderLit_first_token v _ hw.1 (stop_head_comma _))]
    simp only [hval, parse_array_sep_comma, hrec, denoteSeq]
    simp

theorem parse_object_loop_render : ∀ (kvs : LitMap) (fuel : Nat) (m : List (String × JValue))
    (rest : List Char), wfMap kvs = true → fuelMap kvs ≤ fuel →
    parse_object_loop fuel m (renderMap kvs ++ rest) =
      some (.object (insertAll m (denoteMapRaw kvs)), rest)
  | .nil, fuel, m, rest, _hwf, hf => by
    obtain ⟨f, rfl⟩ : ∃ f, fuel = f + 1 := ⟨fuel - 1, by simp [fuelMap] at hf; omega⟩
    rw [show renderMap .nil ++ rest = rbraceChar :: rest by simp [renderMap]]
    simp only [parse_object_loop, nextToken_rbrace, insertAll, denoteMapRaw, List.foldl_nil]
  | .cons k v .nil, fuel, m, rest, hwf, hf => by
    have hw := hwf
    simp only [wfMap, Bool.and_eq_true] at hw
    obtain ⟨⟨hk, hv⟩, _⟩ := hw
    have hkq : ∀ c ∈ k, c.toNat ≠ 34 := by simpa using hk
    have hfuel : 1 + max (fuelLit v) (2 + fuelMap .nil) ≤ fuel := by simpa [fuelMap] using hf
    have hm1 := le_max_left (fuelLit v) (2 + fuelMap LitMap.nil)
    have hm2 := le_max_right (fuelLit v) (2 + fuelMap LitMap.nil)
    obtain ⟨f, rfl⟩ : ∃ f, fuel = f + 1 := ⟨fuel - 1, by omega⟩
    rw [show renderMap (.cons k v .nil) ++ rest =
          quoteChar :: (k ++ quoteChar :: (':' :: (renderLit v ++ (rbraceChar :: rest)))) by
        simp [renderMap]]
    have hval := parse_value_render v f (rbraceChar :: rest) hv (by omega) (stop_head_rbrace rest)
    simp only [parse_object_loop, nextToken_string_tok k _ hkq, nextToken_collon, hval,
      parse_object_sep_close f _ rest (by omega)]
    simp [insertAll, denoteMapRaw]
  | .cons k v (.cons k2 v2 tl2), fuel, m, rest, hwf, hf => by
    have hw := hwf
    simp only [wfMap, Bool.and_eq_true] at hw
    obtain ⟨⟨hk, hv⟩, htl⟩ := hw
    have hkq : ∀ c ∈ k, c.toNat ≠ 34 := by simpa using hk
    have htl2 : wfMap (.cons k2 v2 tl2) = true := by
      simp only [wfMap, Bool.and_eq_true]
      exact htl
    have hfuel : 1 + max (fuelLit v) (2 + fuelMap (.cons k2 v2 tl2)) ≤ fuel := by
      simpa [fuelMap] using hf
    have hm1 := le_max_left (fuelLit v) (2 + fuelMap (LitMap.cons k2 v2 tl2))
    have hm2 := le_max_right (fuelLit v) (2 + fuelMap (LitMap.cons k2 v2 tl2))
    obtain ⟨f, rfl⟩ : ∃ f, fuel = f + 1 := ⟨fuel - 1, by omega⟩
    obtain ⟨g, rfl⟩ : ∃ g, f = g + 1 := ⟨f - 1, by omega⟩
    rw [show renderMap (.cons k v (.cons k2 v2 tl2)) ++ rest =
          quoteChar :: (k ++ quoteChar :: (':' ::
            (renderLit v ++ (',' :: (renderMap (.cons k2 v2 tl2) ++ rest))))) by
        simp [renderMap]]
    have hval := parse_value_render v (g + 1)
      (',' :: (renderMap (.cons k2 v2 tl2) ++ rest)) hv (by omega) (stop_head_comma _)
    have hrec := parse_object_loop_render (.cons k2 v2 tl2) g
      (insertKV m ⟨k⟩ (denoteLit v)) rest htl2 (by omega)
    simp only [parse_object_loop, nextToken_string_tok k _ hkq, nextToken_collon, hval,
      parse_object_sep_comma, hrec]
    simp [insertAll, denoteMapRaw]

end

theorem insertKV_fresh (m : List (String × JValue)) (k : String) (v : JValue)
    (h : k ∉ m.map Prod.fst) : insertKV m k v = m ++ [(k, v)] := by
  induction m with
  | nil => rfl
  | cons p tl ih =>
    obtain ⟨k0, v0⟩ := p
    simp only [List.map_cons, List.mem_cons, not_or] at h
    simp only [insertKV]
    rw [if_neg (fun he => h.1 (by simp [he])), ih (by simpa using h.2)]
    simp

theorem insertAll_nodup (ps : List (String × JValue)) : ∀ m : List (String × JValue),
    (ps.map Prod.fst).Nodup → (∀ p ∈ ps, p.1 ∉ m.map Prod.fst) →
    insertAll m ps = m ++ ps := by
  induction ps with
  | nil =>
    intro m _ _
    simp [insertAll]
  | cons p tl ih =>
    intro m hnd hfresh
    simp only [List.map_cons, List.nodup_cons] at hnd
    simp only [insertAll, List.foldl_cons]
    have h1 : insertKV m p.1 p.2 = m ++ [(p.1, p.2)] :=
      insertKV_fresh m p.1 p.2 (hfresh p (by simp))
    have h2 : insertAll (m ++ [(p.1, p.2)]) tl = (m ++ [(p.1, p.2)]) ++ tl := by
      apply ih (m ++ [(p.1, p.2)]) hnd.2
      intro q hq
      simp only [List.map_append, List.mem_append, not_or]
      refine ⟨hfresh q (by simp [hq]), ?_⟩
      simp only [List.map_cons, List.map_nil, List.mem_singleton]
      intro hqp
      exact hnd.1 (hqp ▸ List.mem_map_of_mem Prod.fst hq)
    show insertAll (insertKV m p.1 p.2) tl = m ++ p :: tl
    rw [h1, h2]
    simp

theorem denoteMapRaw_keys : ∀ kvs : LitMap,
    (denoteMapRaw kvs).map Prod.fst = mapKeys kvs
  | .nil => rfl
  | .cons k v tl => by
    simp only [denoteMapRaw, mapKeys, List.map_cons, denoteMapRaw_keys tl]

theorem renderLit_length_pos (l : Lit) : 1 ≤ (renderLit l).length := by
  cases l with
  | null => simp [renderLit]
  | bool b => cases b <;> simp [renderLit]
  | str s => simp [renderLit]
  | num n =>
    simp only [renderLit]
    have := natDigits_ne_nil n
    cases h : natDigits n with
    | nil => exact absurd h this
    | cons c t => simp [h]
  | arr els => simp [renderLit]
  | obj kvs => simp [renderLit]

mutual

theorem fuelLit_le : ∀ l : Lit, fuelLit l ≤ 2 * (renderLit l).length
  | .null => by simp [fuelLit, renderLit]
  | .bool true => by simp [fuelLit, renderLit]
  | .bool false => by simp [fuelLit, renderLit]
  | .str s => by simp [fuelLit, renderLit]; omega
  | .num n => by
    have := renderLit_length_pos (.num n)
    simp only [fuelLit]
    omega
  | .arr els => by
    have := fuelSeq_le els
    simp only [fuelLit, renderLit, List.length_cons]
    omega
  | .obj kvs => by
    have := fuelMap_le kvs
    simp only [fuelLit, renderLit, List.length_cons]
    omega

theorem fuelSeq_le : ∀ els : LitSeq, fuelSeq els ≤ 2 * (renderSeq els).length
  | .nil => by simp [fuelSeq, renderSeq]
  | .cons v .nil => by
    have h1 := fuelLit_le v
    have h2 := renderLit_length_pos v
    simp only [fuelSeq, renderSeq, List.length_append, List.length_cons, List.length_nil]
    omega
  | .cons v (.cons w tl) => by
    have h1 := fuelLit_le v
    have h2 := renderLit_length_pos v
    have h4 := fuelSeq_le (.cons w tl)
    simp only [fuelSeq] at h4
    simp only [fuelSeq, renderSeq, List.length_append, List.length_cons]
    omega

theorem fuelMap_le : ∀ kvs : LitMap, fuelMap kvs ≤ 2 * (renderMap kvs).length
  | .nil => by simp [fuelMap, renderMap]
  | .cons k v .nil => by
    have h1 := fuelLit_le v
    have h2 := renderLit_length_pos v
    simp only [fuelMap, renderMap, List.length_append, List.length_cons, List.length_nil]
    omega
  | .cons k v (.cons k2 v2 tl) => by
    have h1 := fuelLit_le v
    have h2 := renderLit_length_pos v
    have h4 := fuelMap_le (.cons k2 v2 tl)
    simp only [fuelMap] at h4
    simp only [fuelMap, renderMap, List.length_append, List.length_cons]
    omega

end

/-- Claim C4: for every object literal whose keys are pairwise distinct
and appear in a given source order — quantified here over abstract literal
descriptions `LitMap` (keys with arbitrary nested literal values),
rendered to canonical document text — the `Object` returned by the parser
enumerates its keys in exactly that source order. -/
theorem object_C4_key_order (kvs : LitMap)
    (hwf : wfMap kvs = true) (hnd : (mapKeys kvs).Nodup) :
    parse (renderLit (.obj kvs)) = some (.object (denoteMapRaw kvs), []) ∧
    (denoteMapRaw kvs).map Prod.fst = mapKeys kvs := by
  have hkeys := denoteMapRaw_keys kvs
  constructor
  · rw [show renderLit (.obj kvs) = lbraceChar :: renderMap kvs by simp [renderLit]]
    simp only [parse, nextToken_lbrace]
    rw [show 2 * (lbraceChar :: renderMap kvs).length + 2 =
      (2 * (lbraceChar :: renderMap kvs).length + 1) + 1 by omega]
    simp only [parse_object, nextToken_lbrace]
    have hbound : fuelMap kvs ≤ 2 * (lbraceChar :: renderMap kvs).length + 1 := by
      have := fuelMap_le kvs
      simp only [List.length_cons]
      omega
    have hloop := parse_object_loop_render kvs
      (2 * (lbraceChar :: renderMap kvs).length + 1) [] [] hwf hbound
    rw [List.append_nil] at hloop
    rw [hloop, insertAll_nodup (denoteMapRaw kvs) [] (hkeys ▸ hnd) (by simp)]
    simp
  · exact hkeys

/-- Claim C4, witness: the two-key object literal with body
`"a":1,"b":null` parses to an object whose keys enumerate as `a, b`. -/
theorem object_C4_witness :
    parse (renderLit (.obj (.cons ['a'] (.num 1) (.cons ['b'] .null .nil)))) =
      some (.object (denoteMapRaw (.cons ['a'] (.num 1) (.cons ['b'] .null .nil))), []) ∧
    (denoteMapRaw (.cons ['a'] (.num 1) (.cons ['b'] .null .nil))).map Prod.fst =
      mapKeys (.cons ['a'] (.num 1) (.cons ['b'] .null .nil)) :=
  object_C4_key_order _ (by decide) (by decide)

/-! ## Claim C9 machinery: fuel monotonicity -/

mutual

theorem parse_value_mono : ∀ f g cs r, f ≤ g → parse_value f cs = some r →
    parse_value g cs = some r
  | 0, _, cs, r, _, h => by simp [parse_value] at h
  | f + 1, g, cs, r, hfg, h => by
    obtain ⟨g', rfl⟩ : ∃ g', g = g' + 1 := ⟨g - 1, by omega⟩
    simp only [parse_value] at h ⊢
    split at h
    · exact h
    · exact h
    · exact h
    · exact h
    · exact parse_object_mono f g' cs r (by omega) h
    · exact parse_array_mono f g' cs r (by omega) h
    · simp at h

theorem parse_object_mono : ∀ f g cs r, f ≤ g → parse_object f cs = some r →
    parse_object g cs = some r
  | 0, _, cs, r, _, h => by simp [parse_object] at h
  | f + 1, g, cs, r, hfg, h => by
    obtain ⟨g', rfl⟩ : ∃ g', g = g' + 1 := ⟨g - 1, by omega⟩
    simp only [parse_object] at h ⊢
    split at h
    · exact parse_object_loop_mono f g' _ _ r (by omega) h
    · simp at h

theorem parse_object_loop_mono : ∀ f g m cs r, f ≤ g → parse_object_loop f m cs = some r →
    parse_object_loop g m cs = some r
  | 0, _, m, cs, r, _, h => by simp [parse_object_loop] at h
  | f + 1, g, m, cs, r, hfg, h => by
    obtain ⟨g', rfl⟩ : ∃ g', g = g' + 1 := ⟨g - 1, by omega⟩
    simp only [parse_object_loop] at h ⊢
    split at h
    · exact h
    · split at h
      · split at h
        · rename_i v r3 heq
          rw [parse_value_mono f g' _ (v, r3) (by omega) heq]
          exact parse_object_sep_mono f g' _ _ r (by omega) h
        · simp at h
      · simp at h
    · simp at h

theorem parse_object_sep_mono : ∀ f g m cs r, f ≤ g → parse_object_sep f m cs = some r →
    parse_object_sep g m cs = some r
  | 0, _, m, cs, r, _, h => by simp [parse_object_sep] at h
  | f + 1, g, m, cs, r, hfg, h => by
    obtain ⟨g', rfl⟩ : ∃ g', g = g' + 1 := ⟨g - 1, by omega⟩
    simp only [parse_object_sep] at h ⊢
    split at h
    · exact parse_object_loop_mono f g' _ _ r (by omega) h
    · exact parse_object_loop_mono f g' _ _ r (by omega) h
    · simp at h

theorem parse_array_mono : ∀ f g cs r, f ≤ g → parse_array f cs = some r →
    parse_array g cs = some r
  | 0, _, cs, r, _, h => by simp [parse_array] at h
  | f + 1, g, cs, r, hfg, h => by
    obtain ⟨g', rfl⟩ : ∃ g', g = g' + 1 := ⟨g - 1, by omega⟩
    simp only [parse_array] at h ⊢
    split at h
    · exact parse_array_loop_mono f g' _ _ r (by omega) h
    · simp at h

theorem parse_array_loop_mono : ∀ f g acc cs r, f ≤ g → parse_array_loop f acc cs = some r →
    parse_array_loop g acc cs = some r
  | 0, _, acc, cs, r, _, h => by simp [parse_array_loop] at h
  | f + 1, g, acc, cs, r, hfg, h => by
    obtain ⟨g', rfl⟩ : ∃ g', g = g' + 1 := ⟨g - 1, by omega⟩
    simp only [parse_array_loop] at h ⊢
    split at h
    · exact h
    · split at h
      · rename_i v r3 heq
        rw [parse_value_mono f g' _ (v, r3) (by omega) heq]
        exact parse_array_sep_mono f g' _ _ r (by omega) h
      · simp at h

theorem parse_array_sep_mono : ∀ f g acc cs r, f ≤ g → parse_array_sep f acc cs = some r →
    parse_array_sep g acc cs = some r
  | 0, _, acc, cs, r, _, h => by simp [parse_array_sep] at h
  | f + 1, g, acc, cs, r, hfg, h => by
    obtain ⟨g', rfl⟩ : ∃ g', g = g' + 1 := ⟨g - 1, by omega⟩
    simp only [parse_array_sep] at h ⊢
    split at h
    · exact parse_array_loop_mono f g' _ _ r (by omega) h
    · exact parse_array_loop_mono f g' _ _ r (by omega) h
    · simp at h

end

/-! ## Claim C9 machinery: the scanner reads only a prefix -/

theorem consume_string_loop_append : ∀ cs s r junk, consume_string_loop cs = some (s, r) →
    consume_string_loop (cs ++ junk) = some (s, r ++ junk) := by
  intro cs
  induction cs with
  | nil => intro s r junk h; simp [consume_string_loop] at h
  | cons c t ih =>
    intro s r junk h
    simp only [List.cons_append, consume_string_loop, List.append_eq] at h ⊢
    by_cases hc : c.toNat = 34
    · rw [if_pos hc] at h ⊢
      simp only [Option.some.injEq, Prod.mk.injEq] at h
      obtain ⟨rfl, rfl⟩ := h
      rfl
    · rw [if_neg hc] at h ⊢
      cases hrec : consume_string_loop t with
      | none => rw [hrec] at h; simp at h
      | some pr =>
        obtain ⟨s0, r0⟩ := pr
        rw [hrec] at h
        simp only [Option.some.injEq, Prod.mk.injEq] at h
        obtain ⟨rfl, rfl⟩ := h
        rw [ih s0 r0 junk hrec]

theorem consume_string_append (cs : List Char) (t : JToken) (r junk : List Char)
    (h : consume_string cs = some (t, r)) :
    consume_string (cs ++ junk) = some (t, r ++ junk) := by
  cases cs with
  | nil => simp [consume_string] at h
  | cons c rest =>
    simp only [List.cons_append, consume_string] at h ⊢
    by_cases hc : c.toNat = 34
    · rw [if_pos hc] at h ⊢
      cases hrec : consume_string_loop rest with
      | none => rw [hrec] at h; simp at h
      | some pr =>
        obtain ⟨s0, r0⟩ := pr
        rw [hrec] at h
        simp only [Option.some.injEq, Prod.mk.injEq] at h
        obtain ⟨rfl, rfl⟩ := h
        rw [consume_string_loop_append rest s0 r0 junk hrec]
    · rw [if_neg hc] at h
      simp at h

theorem consume_int_loop_append : ∀ cs acc n r junk, consume_int_loop acc cs = some (n, r) →
    r ≠ [] → consume_int_loop acc (cs ++ junk) = some (n, r ++ junk) := by
  intro cs
  induction cs with
  | nil =>
    intro acc n r junk h hr
    simp only [consume_int_loop, Option.some.injEq, Prod.mk.injEq] at h
    exact absurd h.2.symm hr
  | cons c t ih =>
    intro acc n r junk h hr
    simp only [List.cons_append, consume_int_loop] at h ⊢
    by_cases hs : c.toNat = 45 ∨ c.toNat = 43
    · rw [if_pos hs] at h ⊢
      by_cases he : acc.isEmpty
      · rw [if_pos he] at h ⊢
        exact ih (acc ++ [c]) n r junk h hr
      · rw [if_neg he] at h
        simp at h
    · rw [if_neg hs] at h ⊢
      by_cases hd : isDigitChar c
      · rw [if_pos hd] at h ⊢
        exact ih (acc ++ [c]) n r junk h hr
      · rw [if_neg hd] at h ⊢
        simp only [Option.some.injEq, Prod.mk.injEq] at h
        obtain ⟨rfl, rfl⟩ := h
        rfl

theorem consume_int_append (cs : List Char) (n : Int) (r junk : List Char)
    (h : consume_int cs = some (n, r)) (hr : r ≠ []) :
    consume_int (cs ++ junk) = some (n, r ++ junk) := by
  simp only [consume_int] at h ⊢
  cases hl : consume_int_loop [] cs with
  | none => rw [hl] at h; simp at h
  | some pr =>
    obtain ⟨ds, r0⟩ := pr
    rw [hl] at h
    simp only [Option.some.injEq, Prod.mk.injEq] at h
    obtain ⟨rfl, rfl⟩ := h
    rw [consume_int_loop_append cs [] ds r0 junk hl hr]

theorem takeDigits_append : ∀ cs ds r junk, takeDigits cs = (ds, r) → r ≠ [] →
    takeDigits (cs ++ junk) = (ds, r ++ junk) := by
  intro cs
  induction cs with
  | nil =>
    intro ds r junk h hr
    simp only [takeDigits, Prod.mk.injEq] at h
    exact absurd h.2.symm hr
  | cons c t ih =>
    intro ds r junk h hr
    simp only [List.cons_append, takeDigits, List.append_eq] at h ⊢
    by_cases hd : isDigitChar c
    · rw [if_pos hd] at h ⊢
      cases ht : takeDigits t with
      | mk ds0 r0 =>
        rw [ht] at h
        simp only [Prod.mk.injEq] at h
        obtain ⟨rfl, rfl⟩ := h
        rw [ih ds0 r0 junk ht hr]
    · rw [if_neg hd] at h ⊢
      simp only [Prod.mk.injEq] at h
      obtain ⟨rfl, rfl⟩ := h
      rfl

theorem consume_frac_append (cs : List Char) (fr : Option ℚ) (r junk : List Char)
    (h : consume_frac cs = (fr, r)) (hr : r ≠ []) :
    consume_frac (cs ++ junk) = (fr, r ++ junk) := by
  cases cs with
  | nil =>
    simp only [consume_frac, Prod.mk.injEq] at h
    exact absurd h.2.symm hr
  | cons c t =>
    simp only [List.cons_append, consume_frac] at h ⊢
    by_cases hd : c.toNat = 46
    · rw [if_pos hd] at h ⊢
      cases ht : takeDigits t with
      | mk ds0 r0 =>
        rw [ht] at h
        simp only [Prod.mk.injEq] at h
        obtain ⟨rfl, rfl⟩ := h
        rw [takeDigits_append t ds0 r0 junk ht hr]
    · rw [if_neg hd] at h ⊢
      simp only [Prod.mk.injEq] at h
      obtain ⟨rfl, rfl⟩ := h
      rfl

theorem consume_exponent_append (cs : List Char) (e : Option Int) (r junk : List Char)
    (h : consume_exponent cs = some (e, r)) (hr : r ≠ []) :
    consume_exponent (cs ++ junk) = some (e, r ++ junk) := by
  cases cs with
  | nil =>
    simp only [consume_exponent, Option.some.injEq, Prod.mk.injEq] at h
    exact absurd h.2.symm hr
  | cons c t =>
    simp only [List.cons_append, consume_exponent] at h ⊢
    by_cases he : c.toNat = 101 ∨ c.toNat = 69
    · rw [if_pos he] at h ⊢
      cases hl : consume_int_loop [] t with
      | none => rw [hl] at h; simp at h
      | some pr =>
        obtain ⟨ds, r0⟩ := pr
        rw [hl] at h
        simp only [Option.some.injEq, Prod.mk.injEq] at h
        obtain ⟨rfl, rfl⟩ := h
        rw [consume_int_loop_append t [] ds r0 junk hl hr]
    · rw [if_neg he] at h ⊢
      simp only [Option.some.injEq, Prod.mk.injEq] at h
      obtain ⟨rfl, rfl⟩ := h
      rfl

theorem consume_number_append (cs : List Char) (n : Number) (r junk : List Char)
    (h : consume_number cs = some (n, r)) (hr : r ≠ []) :
    consume_number (cs ++ junk) = some (n, r ++ junk) := by
  simp only [consume_number] at h ⊢
  cases hi : consume_int cs with
  | none => rw [hi] at h; simp at h
  | some pr =>
    obtain ⟨i, r1⟩ := pr
    simp only [hi] at h
    cases hf : consume_frac r1 with
    | mk fr r2 =>
      simp only [hf] at h
      cases he : consume_exponent r2 with
      | none => simp [he] at h
      | some pe =>
        obtain ⟨e, r3⟩ := pe
        simp only [he, Option.some.injEq, Prod.mk.injEq] at h
        obtain ⟨rfl, rfl⟩ := h
        have hr2 : r2 ≠ [] := by
          rintro rfl
          rw [show consume_exponent [] = some (none, []) from rfl] at he
          simp only [Option.some.injEq, Prod.mk.injEq] at he
          exact hr he.2.symm
        have hr1 : r1 ≠ [] := by
          rintro rfl
          rw [show consume_frac [] = (none, []) from rfl] at hf
          simp only [Prod.mk.injEq] at hf
          exact hr2 hf.2.symm
        simp only [consume_int_append cs i r1 junk hi hr1,
          consume_frac_append r1 fr r2 junk hf hr2,
          consume_exponent_append r2 e r3 junk he hr]

theorem takeLower_append : ∀ cs s r junk, takeLower cs = (s, r) → r ≠ [] →
    takeLower (cs ++ junk) = (s, r ++ junk) := by
  intro cs
  induction cs with
  | nil =>
    intro s r junk h hr
    simp only [takeLower, Prod.mk.injEq] at h
    exact absurd h.2.symm hr
  | cons c t ih =>
    intro s r junk h hr
    simp only [List.cons_append, takeLower, List.append_eq] at h ⊢
    by_cases hl : 97 ≤ c.toNat ∧ c.toNat ≤ 122
    · rw [if_pos hl] at h ⊢
      cases ht : takeLower t with
      | mk s0 r0 =>
        rw [ht] at h
        simp only [Prod.mk.injEq] at h
        obtain ⟨rfl, rfl⟩ := h
        rw [ih s0 r0 junk ht hr]
    · rw [if_neg hl] at h ⊢
      simp only [Prod.mk.injEq] at h
      obtain ⟨rfl, rfl⟩ := h
      rfl

theorem consume_keyword_append (cs : List Char) (t : JToken) (r junk : List Char)
    (h : consume_keyword cs = some (t, r)) (hr : r ≠ []) :
    consume_keyword (cs ++ junk) = some (t, r ++ junk) := by
  simp only [consume_keyword] at h ⊢
  cases ht : takeLower cs with
  | mk s0 r0 =>
    simp only [ht] at h
    by_cases h1 : s0 = "null".data
    · rw [if_pos h1] at h
      simp only [Option.some.injEq, Prod.mk.injEq] at h
      have hr0ne : r0 ≠ [] := by rw [h.2]; exact hr
      simp only [takeLower_append cs s0 r0 junk ht hr0ne, if_pos h1]
      rw [← h.1, ← h.2]
    · rw [if_neg h1] at h
      by_cases h2 : s0 = "true".data
      · rw [if_pos h2] at h
        simp only [Option.some.injEq, Prod.mk.injEq] at h
        have hr0ne : r0 ≠ [] := by rw [h.2]; exact hr
        simp only [takeLower_append cs s0 r0 junk ht hr0ne, if_neg h1, if_pos h2]
        rw [← h.1, ← h.2]
      · rw [if_neg h2] at h
        by_cases h3 : s0 = "false".data
        · rw [if_pos h3] at h
          simp only [Option.some.injEq, Prod.mk.injEq] at h
          have hr0ne : r0 ≠ [] := by rw [h.2]; exact hr
          simp only [takeLower_append cs s0 r0 junk ht hr0ne, if_neg h1, if_neg h2, if_pos h3]
          rw [← h.1, ← h.2]
        · rw [if_neg h3] at h
          simp at h

theorem consume_keyword_shape (cs : List Char) (t : JToken) (r : List Char)
    (h : consume_keyword cs = some (t, r)) :
    t = .null ∨ t = .bool true ∨ t = .bool false := by
  simp only [consume_keyword] at h
  cases ht : takeLower cs with
  | mk s0 r0 =>
    simp only [ht] at h
    by_cases h1 : s0 = "null".data
    · rw [if_pos h1] at h
      exact Or.inl ((by simpa using h : JToken.null = t ∧ r0 = r)).1.symm
    rw [if_neg h1] at h
    by_cases h2 : s0 = "true".data
    · rw [if_pos h2] at h
      exact Or.inr (Or.inl ((by simpa using h : JToken.bool true = t ∧ r0 = r)).1.symm)
    rw [if_neg h2] at h
    by_cases h3 : s0 = "false".data
    · rw [if_pos h3] at h
      exact Or.inr (Or.inr ((by simpa using h : JToken.bool false = t ∧ r0 = r)).1.symm)
    rw [if_neg h3] at h
    simp at h

theorem nextToken_append : ∀ cs : List Char, ∀ t r junk, nextToken cs = .tok t r →
    (r ≠ [] ∨ t = .leftBrace ∨ t = .rightBrace ∨ t = .leftBracket ∨ t = .rightBracket ∨
      t = .collon ∨ t = .comma ∨ (∃ s, t = .string s)) →
    nextToken (cs ++ junk) = .tok t (r ++ junk) := by
  intro cs
  induction cs with
  | nil => intro t r junk h _; simp [nextToken] at h
  | cons c rest ih =>
    intro t r junk h hcond
    simp only [List.cons_append, nextToken, List.append_eq] at h ⊢
    by_cases h0 : c.toNat = 32 ∨ c.toNat = 9 ∨ c.toNat = 10
    · rw [if_pos h0] at h ⊢
      exact ih t r junk h hcond
    rw [if_neg h0] at h ⊢
    by_cases h1 : c.toNat = 123
    · rw [if_pos h1] at h ⊢
      obtain ⟨rfl, rfl⟩ : JToken.leftBrace = t ∧ rest = r := by simpa using h
      rfl
    rw [if_neg h1] at h ⊢
    by_cases h2 : c.toNat = 125
    · rw [if_pos h2] at h ⊢
      obtain ⟨rfl, rfl⟩ : JToken.rightBrace = t ∧ rest = r := by simpa using h
      rfl
    rw [if_neg h2] at h ⊢
    by_cases h3 : c.toNat = 91
    · rw [if_pos h3] at h ⊢
      obtain ⟨rfl, rfl⟩ : JToken.leftBracket = t ∧ rest = r := by simpa using h
      rfl
    rw [if_neg h3] at h ⊢
    by_cases h4 : c.toNat = 93
    · rw [if_pos h4] at h ⊢
      obtain ⟨rfl, rfl⟩ : JToken.rightBracket = t ∧ rest = r := by simpa using h
      rfl
    rw [if_neg h4] at h ⊢
    by_cases h5 : c.toNat = 58
    · rw [if_pos h5] at h ⊢
      obtain ⟨rfl, rfl⟩ : JToken.collon = t ∧ rest = r := by simpa using h
      rfl
    rw [if_neg h5] at h ⊢
    by_cases h6 : c.toNat = 44
    · rw [if_pos h6] at h ⊢
      obtain ⟨rfl, rfl⟩ : JToken.comma = t ∧ rest = r := by simpa using h
      rfl
    rw [if_neg h6] at h ⊢
    by_cases h7 : c.toNat = 34
    · rw [if_pos h7] at h ⊢
      cases hcs : consume_string (c :: rest) with
      | none => rw [hcs] at h; simp at h
      | some pr =>
        obtain ⟨tk, r0⟩ := pr
        simp only [hcs] at h
        obtain ⟨rfl, rfl⟩ : tk = t ∧ r0 = r := by simpa using h
        have happ := consume_string_append (c :: rest) tk r0 junk hcs
        rw [List.cons_append] at happ
        rw [happ]
    rw [if_neg h7] at h ⊢
    by_cases h8 : isDigitChar c = true ∨ c.toNat = 45 ∨ c.toNat = 43 ∨ c.toNat = 46
    · rw [if_pos h8] at h ⊢
      cases hcn : consume_number (c :: rest) with
      | none => rw [hcn] at h; simp at h
      | some pr =>
        obtain ⟨num, r0⟩ := pr
        simp only [hcn] at h
        obtain ⟨ht, rfl⟩ : JToken.number num = t ∧ r0 = r := by simpa using h
        subst ht
        have hrne : r0 ≠ [] := by
          rcases hcond with hx | hx | hx | hx | hx | hx | hx | ⟨s, hx⟩
          · exact hx
          all_goals simp at hx
        have happ := consume_number_append (c :: rest) num r0 junk hcn hrne
        rw [List.cons_append] at happ
        rw [happ]
    rw [if_neg h8] at h ⊢
    by_cases h9 : (97 ≤ c.toNat ∧ c.toNat ≤ 122) ∨ (65 ≤ c.toNat ∧ c.toNat ≤ 90)
    · rw [if_pos h9] at h ⊢
      cases hck : consume_keyword (c :: rest) with
      | none => rw [hck] at h; simp at h
      | some pr =>
        obtain ⟨tk, r0⟩ := pr
        simp only [hck] at h
        obtain ⟨ht, rfl⟩ : tk = t ∧ r0 = r := by simpa using h
        subst ht
        have hshape := consume_keyword_shape (c :: rest) tk r0 hck
        have hrne : r0 ≠ [] := by
          rcases hcond with hx | hx | hx | hx | hx | hx | hx | ⟨s, hx⟩
          · exact hx
          all_goals (rcases hshape with hs | hs | hs <;> (rw [hs] at hx; simp at hx))
        have happ := consume_keyword_append (c :: rest) tk r0 junk hck hrne
        rw [List.cons_append] at happ
        rw [happ]
    rw [if_neg h9] at h
    simp at h

theorem nextToken_append_lbrace (cs r junk : List Char)
    (h : nextToken cs = .tok .leftBrace r) :
    nextToken (cs ++ junk) = .tok .leftBrace (r ++ junk) :=
  nextToken_append cs _ r junk h (Or.inr (Or.inl rfl))

theorem nextToken_append_rbrace (cs r junk : List Char)
    (h : nextToken cs = .tok .rightBrace r) :
    nextToken (cs ++ junk) = .tok .rightBrace (r ++ junk) :=
  nextToken_append cs _ r junk h (Or.inr (Or.inr (Or.inl rfl)))

theorem nextToken_append_lbracket (cs r junk : List Char)
    (h : nextToken cs = .tok .leftBracket r) :
    nextToken (cs ++ junk) = .tok .leftBracket (r ++ junk) :=
  nextToken_append cs _ r junk h (Or.inr (Or.inr (Or.inr (Or.inl rfl))))

theorem nextToken_append_rbracket (cs r junk : List Char)
    (h : nextToken cs = .tok .rightBracket r) :
    nextToken (cs ++ junk) = .tok .rightBracket (r ++ junk) :=
  nextToken_append cs _ r junk h (Or.inr (Or.inr (Or.inr (Or.inr (Or.inl rfl)))))

theorem nextToken_append_collon (cs r junk : List Char)
    (h : nextToken cs = .tok .collon r) :
    nextToken (cs ++ junk) = .tok .collon (r ++ junk) :=
  nextToken_append cs _ r junk h (Or.inr (Or.inr (Or.inr (Or.inr (Or.inr (Or.inl rfl))))))

theorem nextToken_append_comma (cs r junk : List Char)
    (h : nextToken cs = .tok .comma r) :
    nextToken (cs ++ junk) = .tok .comma (r ++ junk) :=
  nextToken_append cs _ r junk h (Or.inr (Or.inr (Or.inr (Or.inr (Or.inr (Or.inr (Or.inl rfl)))))))

theorem nextToken_append_string (cs : List Char) (s : String) (r junk : List Char)
    (h : nextToken cs = .tok (.string s) r) :
    nextToken (cs ++ junk) = .tok (.string s) (r ++ junk) :=
  nextToken_append cs _ r junk h
    (Or.inr (Or.inr (Or.inr (Or.inr (Or.inr (Or.inr (Or.inr ⟨s, rfl⟩)))))))

theorem parse_object_sep_nil (f : Nat) (m : List (String × JValue)) :
    parse_object_sep f m [] = none := by
  cases f with
  | zero => rfl
  | succ f => simp [parse_object_sep, nextToken]

theorem parse_array_sep_nil (f : Nat) (acc : List JValue) :
    parse_array_sep f acc [] = none := by
  cases f with
  | zero => rfl
  | succ f => simp [parse_array_sep, nextToken]

theorem parse_value_token : ∀ (f : Nat) (cs : List Char) (p : JValue × List Char),
    parse_value f cs = some p →
    ∃ t' r', nextToken cs = .tok t' r' ∧ t' ≠ .rightBracket ∧
      (p.2 = r' ∨ t' = .leftBrace ∨ t' = .leftBracket)
  | 0, cs, p, h => by simp [parse_value] at h
  | f + 1, cs, p, h => by
    simp only [parse_value] at h
    cases heq : nextToken cs with
    | err => rw [heq] at h; simp at h
    | eof => rw [heq] at h; simp at h
    | tok t' r' =>
      rw [heq] at h
      cases t' with
      | null =>
        have h' : some (JValue.null, r') = some p := h
        obtain rfl : p = (JValue.null, r') := by simpa using h'.symm
        exact ⟨_, r', rfl, by simp, Or.inl rfl⟩
      | bool b =>
        have h' : some (JValue.bool b, r') = some p := h
        obtain rfl : p = (JValue.bool b, r') := by simpa using h'.symm
        exact ⟨_, r', rfl, by simp, Or.inl rfl⟩
      | string str =>
        have h' : some (JValue.string str, r') = some p := h
        obtain rfl : p = (JValue.string str, r') := by simpa using h'.symm
        exact ⟨_, r', rfl, by simp, Or.inl rfl⟩
      | number n =>
        have h' : some (JValue.number n, r') = some p := h
        obtain rfl : p = (JValue.number n, r') := by simpa using h'.symm
        exact ⟨_, r', rfl, by simp, Or.inl rfl⟩
      | leftBrace => exact ⟨_, r', rfl, by simp, Or.inr (Or.inl rfl)⟩
      | leftBracket => exact ⟨_, r', rfl, by simp, Or.inr (Or.inr rfl)⟩
      | rightBrace =>
        have h' : (none : Option (JValue × List Char)) = some p := h
        simp at h'
      | rightBracket =>
        have h' : (none : Option (JValue × List Char)) = some p := h
        simp at h'
      | collon =>
        have h' : (none : Option (JValue × List Char)) = some p := h
        simp at h'
      | comma =>
        have h' : (none : Option (JValue × List Char)) = some p := h
        simp at h'

mutual

theorem parse_value_append : ∀ f cs v r junk, parse_value f cs = some (v, r) → r ≠ [] →
    parse_value f (cs ++ junk) = some (v, r ++ junk)
  | 0, cs, v, r, junk, h, _ => by simp [parse_value] at h
  | f + 1, cs, v, r, junk, h, hr => by
    simp only [parse_value] at h ⊢
    split at h
    · rename_i r' heq
      have hpr : JValue.null = v ∧ r' = r := by simpa using h
      have hr' : r' ≠ [] := by rw [hpr.2]; exact hr
      simp only [nextToken_append cs _ r' junk heq (Or.inl hr')]
      rw [← hpr.1, ← hpr.2]
    · rename_i b r' heq
      have hpr : JValue.bool b = v ∧ r' = r := by simpa using h
      have hr' : r' ≠ [] := by rw [hpr.2]; exact hr
      simp only [nextToken_append cs _ r' junk heq (Or.inl hr')]
      rw [← hpr.1, ← hpr.2]
    · rename_i s r' heq
      have hpr : JValue.string s = v ∧ r' = r := by simpa using h
      have hr' : r' ≠ [] := by rw [hpr.2]; exact hr
      simp only [nextToken_append cs _ r' junk heq (Or.inl hr')]
      rw [← hpr.1, ← hpr.2]
    · rename_i n r' heq
      have hpr : JValue.number n = v ∧ r' = r := by simpa using h
      have hr' : r' ≠ [] := by rw [hpr.2]; exact hr
      simp only [nextToken_append cs _ r' junk heq (Or.inl hr')]
      rw [← hpr.1, ← hpr.2]
    · rename_i r' heq
      simp only [nextToken_append_lbrace cs r' junk heq]
      exact parse_object_append f cs v r junk h
    · rename_i r' heq
      simp only [nextToken_append_lbracket cs r' junk heq]
      exact parse_array_append f cs v r junk h
    · simp at h

theorem parse_object_append : ∀ f cs v r junk, parse_object f cs = some (v, r) →
    parse_object f (cs ++ junk) = some (v, r ++ junk)
  | 0, cs, v, r, junk, h => by simp [parse_object] at h
  | f + 1, cs, v, r, junk, h => by
    simp only [parse_object] at h ⊢
    split at h
    · rename_i r' heq
      simp only [nextToken_append_lbrace cs r' junk heq]
      exact parse_object_loop_append f [] r' v r junk h
    · simp at h

theorem parse_object_loop_append : ∀ f m cs v r junk, parse_object_loop f m cs = some (v, r) →
    parse_object_loop f m (cs ++ junk) = some (v, r ++ junk)
  | 0, m, cs, v, r, junk, h => by simp [parse_object_loop] at h
  | f + 1, m, cs, v, r, junk, h => by
    simp only [parse_object_loop] at h ⊢
    split at h
    · rename_i r' heq
      have hpr : JValue.object m = v ∧ r' = r := by simpa using h
      simp only [nextToken_append_rbrace cs r' junk heq]
      rw [← hpr.1, ← hpr.2]
    · rename_i k r1 heq
      split at h
      · rename_i r2 heq1
        split at h
        · rename_i v0 r3 heq2
          have hr3 : r3 ≠ [] := by
            rintro rfl
            rw [parse_object_sep_nil] at h
            simp at h
          simp only [nextToken_append_string cs k r1 junk heq,
            nextToken_append_collon r1 r2 junk heq1,
            parse_value_append f r2 v0 r3 junk heq2 hr3]
          exact parse_object_sep_append f (insertKV m k v0) r3 v r junk h
        · simp at h
      · simp at h
    · simp at h

theorem parse_object_sep_append : ∀ f m cs v r junk, parse_object_sep f m cs = some (v, r) →
    parse_object_sep f m (cs ++ junk) = some (v, r ++ junk)
  | 0, m, cs, v, r, junk, h => by simp [parse_object_sep] at h
  | f + 1, m, cs, v, r, junk, h => by
    simp only [parse_object_sep] at h ⊢
    split at h
    · rename_i r' heq
      simp only [nextToken_append_comma cs r' junk heq]
      exact parse_object_loop_append f m r' v r junk h
    · rename_i r' heq
      simp only [nextToken_append_rbrace cs r' junk heq]
      exact parse_object_loop_append f m cs v r junk h
    · simp at h

theorem parse_array_append : ∀ f cs v r junk, parse_array f cs = some (v, r) →
    parse_array f (cs ++ junk) = some (v, r ++ junk)
  | 0, cs, v, r, junk, h => by simp [parse_array] at h
  | f + 1, cs, v, r, junk, h => by
    simp only [parse_array] at h ⊢
    split at h
    · rename_i r' heq
      simp only [nextToken_append_lbracket cs r' junk heq]
      exact parse_array_loop_append f [] r' v r junk h
    · simp at h

theorem parse_array_loop_append : ∀ f acc cs v r junk, parse_array_loop f acc cs = some (v, r) →
    parse_array_loop f acc (cs ++ junk) = some (v, r ++ junk)
  | 0, acc, cs, v, r, junk, h => by simp [parse_array_loop] at h
  | f + 1, acc, cs, v, r, junk, h => by
    simp only [parse_array_loop] at h
    split at h
    · rename_i r' heq
      have hpr : JValue.array acc = v ∧ r' = r := by simpa using h
      simp only [parse_array_loop, nextToken_append_rbracket cs r' junk heq]
      rw [← hpr.1, ← hpr.2]
    · split at h
      · rename_i v0 r3 heq2
        have hr3 : r3 ≠ [] := by
          rintro rfl
          rw [parse_array_sep_nil] at h
          simp at h
        obtain ⟨t', r', heqt, ht', hcond3⟩ := parse_value_token f cs (v0, r3) heq2
        have hc : r' ≠ [] ∨ t' = .leftBrace ∨ t' = .rightBrace ∨ t' = .leftBracket ∨
            t' = .rightBracket ∨ t' = .collon ∨ t' = .comma ∨ (∃ s, t' = .string s) := by
          rcases hcond3 with hc | hc | hc
          · exact Or.inl (hc ▸ hr3)
          · exact Or.inr (Or.inl hc)
          · exact Or.inr (Or.inr (Or.inr (Or.inl hc)))
        have hnt := nextToken_append cs t' r' junk heqt hc
        have hNE : ∀ rr, nextToken (cs ++ junk) ≠ .tok .rightBracket rr := by
          intro rr hcontra
          rw [hnt] at hcontra
          exact ht' ((by simpa using hcontra : t' = JToken.rightBracket ∧ r' ++ junk = rr)).1
        rw [parse_array_loop_entry f acc (cs ++ junk) hNE]
        simp only [parse_value_append f cs v0 r3 junk heq2 hr3]
        exact parse_array_sep_append f (acc ++ [v0]) r3 v r junk h
      · simp at h

theorem parse_array_sep_append : ∀ f acc cs v r junk, parse_array_sep f acc cs = some (v, r) →
    parse_array_sep f acc (cs ++ junk) = some (v, r ++ junk)
  | 0, acc, cs, v, r, junk, h => by simp [parse_array_sep] at h
  | f + 1, acc, cs, v, r, junk, h => by
    simp only [parse_array_sep] at h ⊢
    split at h
    · rename_i r' heq
      simp only [nextToken_append_comma cs r' junk heq]
      exact parse_array_loop_append f acc r' v r junk h
    · rename_i r' heq
      simp only [nextToken_append_rbracket cs r' junk heq]
      exact parse_array_loop_append f acc cs v r junk h
    · simp at h

end

/-- Claim C9: for every input whose leading characters form one complete
top-level object or array, `parse` returns that container's `Value`
together with the unconsumed remainder, and never examines that
remainder: appending arbitrary trailing characters — even characters that
would be a lexical error — changes neither the returned `Value` nor the
consumed prefix. -/
theorem parse_C9_prefix_stability (cs junk : List Char) (v : JValue) (rest : List Char)
    (h : parse cs = some (v, rest)) :
    parse (cs ++ junk) = some (v, rest ++ junk) := by
  simp only [parse] at h ⊢
  split at h
  · rename_i r' heq
    simp only [nextToken_append_lbrace cs r' junk heq]
    have h2 := parse_object_mono (2 * cs.length + 2) (2 * (cs ++ junk).length + 2) cs
      (v, rest) (by simp [List.length_append]) h
    exact parse_object_append _ cs v rest junk h2
  · rename_i r' heq
    simp only [nextToken_append_lbracket cs r' junk heq]
    have h2 := parse_array_mono (2 * cs.length + 2) (2 * (cs ++ junk).length + 2) cs
      (v, rest) (by simp [List.length_append]) h
    exact parse_array_append _ cs v rest junk h2
  · simp at h

/-- Claim C9, witness: the complete object document with body `{}`
followed by the junk character `@` — a lexical error were it ever
scanned — still parses to the empty object, with `@` left unconsumed. -/
theorem parse_C9_witness :
    parse ("\x7b\x7d".data ++ ['@']) = some (.object [], ['@']) :=
  parse_C9_prefix_stability "\x7b\x7d".data ['@'] (.object []) [] rfl
/-! ## Claim C8 groundwork: the fraction-digit search always terminates
with a correct exponent for a finite decimal -/

theorem findKF_ge : ∀ (fuel i : Nat) (x : ℚ), i ≤ findKF fuel i x := by
  intro fuel
  induction fuel with
  | zero => intro i x; simp [findKF]
  | succ f ih =>
    intro i x
    simp only [findKF]
    split
    · exact le_rfl
    · exact le_trans (by omega) (ih (i + 1) x)

theorem findKF_found : ∀ (fuel i : Nat) (x : ℚ) (j : Nat), i ≤ j → j ≤ i + fuel →
    10 ^ j % x.den = 0 → 10 ^ (findKF fuel i x) % x.den = 0 := by
  intro fuel
  induction fuel with
  | zero =>
    intro i x j h1 h2 hj
    have hij : j = i := by omega
    subst hij
    simpa [findKF] using hj
  | succ f ih =>
    intro i x j h1 h2 hj
    simp only [findKF]
    by_cases h : 10 ^ i % x.den = 0
    · rw [if_pos h]
      exact h
    · rw [if_neg h]
      rcases eq_or_lt_of_le h1 with rfl | hlt
      · exact absurd hj h
      · exact ih (i + 1) x j (by omega) (by omega) hj

theorem dvd_ten_pow_le (d : Nat) : ∀ K, d ≠ 0 → d ∣ 10 ^ K → ∃ j, j ≤ d ∧ d ∣ 10 ^ j := by
  induction d using Nat.strong_induction_on with
  | _ d ih =>
    intro K hd0 hdvd
    rcases Nat.lt_or_ge d 2 with hlt | hge
    · have hd1 : d = 1 := by omega
      exact ⟨0, by omega, by simp [hd1]⟩
    · by_cases h2 : 2 ∣ d
      · obtain ⟨d', rfl⟩ := h2
        have hd'0 : d' ≠ 0 := by rintro rfl; simp at hd0
        have hsub : d' ∣ 10 ^ K := dvd_trans (dvd_mul_left d' 2) hdvd
        obtain ⟨j, hj, hjd⟩ := ih d' (by omega) K hd'0 hsub
        refine ⟨j + 1, by omega, ?_⟩
        have ha : 2 * d' ∣ 2 * 10 ^ j := mul_dvd_mul_left 2 hjd
        have hb : (2 : Nat) * 10 ^ j ∣ 10 * 10 ^ j :=
          mul_dvd_mul_right (by norm_num : (2 : Nat) ∣ 10) _
        exact dvd_trans ha (hb.trans (dvd_of_eq (by ring)))
      · by_cases h5 : 5 ∣ d
        · obtain ⟨d', rfl⟩ := h5
          have hd'0 : d' ≠ 0 := by rintro rfl; simp at hd0
          have hsub : d' ∣ 10 ^ K := dvd_trans (dvd_mul_left d' 5) hdvd
          obtain ⟨j, hj, hjd⟩ := ih d' (by omega) K hd'0 hsub
          refine ⟨j + 1, by omega, ?_⟩
          have ha : 5 * d' ∣ 5 * 10 ^ j := mul_dvd_mul_left 5 hjd
          have hb : (5 : Nat) * 10 ^ j ∣ 10 * 10 ^ j :=
            mul_dvd_mul_right (by norm_num : (5 : Nat) ∣ 10) _
          exact dvd_trans ha (hb.trans (dvd_of_eq (by ring)))
        · exfalso
          have hc2 : Nat.Coprime 2 d := (Nat.Prime.coprime_iff_not_dvd Nat.prime_two).mpr h2
          have hc5 : Nat.Coprime 5 d := (Nat.Prime.coprime_iff_not_dvd Nat.prime_five).mpr h5
          have hc10 : Nat.Coprime d 10 := by
            have h25 : (10 : Nat) = 2 * 5 := rfl
            rw [h25]
            exact Nat.Coprime.mul_right hc2.symm hc5.symm
          have hcK : Nat.Coprime d (10 ^ K) := hc10.pow_right K
          have hg1 : d.gcd (10 ^ K) = d := Nat.gcd_eq_left hdvd
          have hg2 : d.gcd (10 ^ K) = 1 := hcK.gcd_eq_one
          omega

theorem findK_dvd (x : ℚ) (hK : ∃ K, x.den ∣ 10 ^ K) : x.den ∣ 10 ^ findK x := by
  obtain ⟨K, hK⟩ := hK
  have hd0 : x.den ≠ 0 := by have := x.den_pos; omega
  obtain ⟨j, hj, hjd⟩ := dvd_ten_pow_le x.den K hd0 hK
  have h := findKF_found x.den 0 x j (Nat.zero_le j) (by omega)
    ((Nat.dvd_iff_mod_eq_zero).mp hjd)
  unfold findK
  exact (Nat.dvd_iff_mod_eq_zero).mpr h

theorem findK_one (x : ℚ) (h : x.den = 1) : findK x = 0 := by
  unfold findK
  rw [h]
  simp [findKF, h]

theorem findK_pos (x : ℚ) (h : x.den ≠ 1) : 1 ≤ findK x := by
  unfold findK
  have hd : 2 ≤ x.den := by have := x.den_pos; omega
  obtain ⟨f, hf⟩ : ∃ f, x.den = f + 2 := ⟨x.den - 2, by omega⟩
  rw [hf]
  simp only [findKF]
  rw [if_neg (by rw [pow_zero, Nat.mod_eq_of_lt (by omega)]; omega)]
  exact findKF_ge (f + 1) 1 x

theorem intAdd_den_dvd (j : Int) (q : ℚ) : ((j : ℚ) + q).den ∣ q.den := by
  have h := Rat.add_num_den (j : ℚ) q
  have hd := Rat.den_dvd ((j : ℚ).num * q.den + (j : ℚ).den * q.num) ((j : ℚ).den * q.den)
  rw [← h] at hd
  rw [Rat.den_intCast] at hd
  simp at hd
  exact_mod_cast hd
theorem combine_eq (i : Int) (q : ℚ) :
    combine i q = if 0 ≤ i then (i : ℚ) + q else (i : ℚ) - q := by
  have hd0 : ((q.den : ℚ)) ≠ 0 := by
    have := q.den_pos
    positivity
  have hq : q * (q.den : ℚ) = (q.num : ℚ) := Rat.mul_den_eq_num q
  unfold combine
  by_cases h : 0 ≤ i
  · rw [if_pos h, if_pos h, Rat.divInt_eq_div]
    push_cast
    field_simp
    linarith [hq]
  · rw [if_neg h, if_neg h, Rat.divInt_eq_div]
    push_cast
    field_simp
    linarith [hq]
theorem renderPos_int_add (j : Int) (q x : ℚ) (hx : x = (j : ℚ) + q) (hj : 0 ≤ j)
    (hq0 : 0 ≤ q) (hq1 : q < 1) (hK : ∃ K, q.den ∣ 10 ^ K) :
    (q = 0 ∧ renderPos x = natDigits j.toNat) ∨
    (∃ ds, renderPos x = natDigits j.toNat ++ '.' :: ds ∧ allDigits ds = true ∧ ds ≠ [] ∧
      parseFrac ds = some q) := by
  by_cases hq : q = 0
  · left
    refine ⟨hq, ?_⟩
    subst hq
    rw [add_zero] at hx
    subst hx
    have hden : ((j : ℚ)).den = 1 := Rat.den_intCast j
    have hk : findK ((j : ℚ)) = 0 := findK_one _ hden
    simp [renderPos, hk, Rat.num_intCast]
  · right
    have hq0' : 0 < q := lt_of_le_of_ne hq0 (Ne.symm hq)
    -- the sum is not integral, so at least one fractional digit is produced
    have hdenx_ne : x.den ≠ 1 := by
      intro h1
      have hxint : ((x.num : ℚ)) = x := (Rat.den_eq_one_iff x).mp h1
      have hqcast : q = ((x.num - j : ℤ) : ℚ) := by
        push_cast
        rw [hxint, hx]
        ring
      have hqden : q.den = 1 := by rw [hqcast]; exact Rat.den_intCast _
      have hqn : ((q.num : ℚ)) = q := (Rat.den_eq_one_iff q).mp hqden
      have h0 : 0 < q.num := by
        have hcast : (0 : ℚ) < (q.num : ℚ) := by rw [hqn]; exact hq0'
        exact_mod_cast hcast
      have h1' : q.num < 1 := by
        have hlt : (q.num : ℚ) < 1 := by rw [hqn]; exact hq1
        exact_mod_cast hlt
      omega
    have hkpos : 1 ≤ findK x := findK_pos x hdenx_ne
    have hdvdq : x.den ∣ q.den := hx ▸ intAdd_den_dvd j q
    have hKx : ∃ K, x.den ∣ 10 ^ K := by
      obtain ⟨K, hK⟩ := hK
      exact ⟨K, hdvdq.trans hK⟩
    have hdvd : x.den ∣ 10 ^ findK x := findK_dvd x hKx
    have hx0 : 0 ≤ x := by
      rw [hx]
      have : (0 : ℚ) ≤ (j : ℚ) := by exact_mod_cast hj
      linarith
    have hnum0 : 0 ≤ x.num := Rat.num_nonneg.mpr hx0
    set k : Nat := findK x with hk
    set N : Nat := (x.num * ((10 ^ k / x.den : Nat) : Int)).toNat with hN
    have hge : 0 ≤ x.num * ((10 ^ k / x.den : Nat) : Int) :=
      mul_nonneg hnum0 (Int.natCast_nonneg _)
    have hd0 : ((x.den : ℚ)) ≠ 0 := by
      have := x.den_pos
      positivity
    have hcancel : ((10 ^ k / x.den : Nat) : ℚ) * (x.den : ℚ) = 10 ^ k := by
      exact_mod_cast congrArg (fun n : Nat => (n : ℚ)) (Nat.div_mul_cancel hdvd)
    have hNZ : (N : ℤ) = x.num * ((10 ^ k / x.den : Nat) : Int) := by
      rw [hN]
      exact Int.toNat_of_nonneg hge
    have hNQ : (N : ℚ) = x * 10 ^ k := by
      have h1 : (N : ℚ) = (x.num : ℚ) * ((10 ^ k / x.den : Nat) : ℚ) := by
        have hc := congrArg (fun z : ℤ => (z : ℚ)) hNZ
        simp only [Int.cast_mul, Int.cast_natCast] at hc
        exact hc
      have h3 : x * (x.den : ℚ) = (x.num : ℚ) := Rat.mul_den_eq_num x
      rw [h1]
      calc (x.num : ℚ) * ((10 ^ k / x.den : Nat) : ℚ)
          = (x * (x.den : ℚ)) * ((10 ^ k / x.den : Nat) : ℚ) := by rw [h3]
        _ = x * (((10 ^ k / x.den : Nat) : ℚ) * (x.den : ℚ)) := by ring
        _ = x * 10 ^ k := by rw [hcancel]
    have hjq : ((j.toNat : ℚ)) = (j : ℚ) := by exact_mod_cast Int.toNat_of_nonneg hj
    have hjlex : (j : ℚ) ≤ x := by rw [hx]; linarith
    have hxlt : x < (j : ℚ) + 1 := by rw [hx]; linarith
    have hlow : (j.toNat * 10 ^ k : Nat) ≤ N := by
      have hQ : ((j.toNat * 10 ^ k : Nat) : ℚ) ≤ (N : ℚ) := by
        push_cast
        rw [hNQ, hjq]
        have hp : (0 : ℚ) ≤ 10 ^ k := by positivity
        exact mul_le_mul_of_nonneg_right hjlex hp
      exact_mod_cast hQ
    have hhigh : N < (j.toNat + 1) * 10 ^ k := by
      have hQ : (N : ℚ) < (((j.toNat + 1) * 10 ^ k : Nat) : ℚ) := by
        push_cast
        rw [hNQ, hjq]
        have hp : (0 : ℚ) < 10 ^ k := by positivity
        exact mul_lt_mul_of_pos_right hxlt hp
      exact_mod_cast hQ
    have hdivN : N / 10 ^ k = j.toNat := Nat.div_eq_of_lt_le hlow hhigh
    set fp : Nat := N % 10 ^ k with hfp
    have hsplit : fp = N - j.toNat * 10 ^ k := by
      have hdm := Nat.div_add_mod N (10 ^ k)
      rw [hdivN, mul_comm] at hdm
      rw [hfp]
      exact (Nat.sub_eq_of_eq_add (by rw [Nat.add_comm]; exact hdm.symm)).symm
    have hmodN : ((fp : ℚ)) = q * 10 ^ k := by
      rw [hsplit, Nat.cast_sub hlow]
      push_cast
      rw [hNQ, hjq, hx]
      ring
    have hfp_lt : fp < 10 ^ k := Nat.mod_lt _ (by positivity)
    have hlen : (natDigits fp).length ≤ k := natDigits_length_le fp k hfp_lt hkpos
    set ds : List Char := List.replicate (k - (natDigits fp).length) (digitChar 0) ++
      natDigits fp with hds
    have hall : allDigits ds = true := allDigits_padZeros _ _ (natDigits_allDigits fp)
    have hne : ds ≠ [] := by
      rw [hds]
      intro hcon
      exact natDigits_ne_nil fp (List.append_eq_nil.mp hcon).2
    have hdslen : ds.length = k := by
      rw [hds]
      simp only [List.length_append, List.length_replicate]
      omega
    have hdsval : digitsVal ds = fp := by
      rw [hds, digitsVal_padZeros, natDigits_val]
    refine ⟨ds, ?_, hall, hne, ?_⟩
    · show (if findK x = 0 then natDigits x.num.toNat else
        natDigits ((x.num * ((10 ^ findK x / x.den : Nat) : Int)).toNat / 10 ^ findK x) ++
          '.' :: (List.replicate (findK x -
              (natDigits ((x.num * ((10 ^ findK x / x.den : Nat) : Int)).toNat %
                10 ^ findK x)).length) (digitChar 0) ++
            natDigits ((x.num * ((10 ^ findK x / x.den : Nat) : Int)).toNat % 10 ^ findK x))) =
        natDigits j.toNat ++ '.' :: ds
      rw [← hk, ← hN]
      rw [if_neg (by omega)]
      rw [hdivN, ← hfp, ← hds]
    · unfold parseFrac
      rw [if_neg hne]
      rw [hdsval, hdslen, Rat.divInt_eq_div]
      push_cast
      rw [hmodN]
      have hp : ((10 : ℚ)) ^ k ≠ 0 := by positivity
      rw [mul_div_cancel_right₀ q hp]
theorem parseI32_pos_digits (ds : List Char) (h : allDigits ds = true) (hne : ds ≠ [])
    (hb : (digitsVal ds : Int) ≤ i32Max) :
    parseI32 ('+' :: ds) = some ((digitsVal ds : Int)) := by
  simp only [parseI32]
  rw [if_pos (show ('+').toNat = 43 by decide), if_pos ⟨hne, h, hb⟩]

theorem consume_int_renderInt (i : Int) (hi1 : i32Min ≤ i) (hi2 : i ≤ i32Max)
    (rest : List Char)
    (hstop : ∀ c ∈ rest.head?, isDigitChar c = false ∧ isSignChar c = false) :
    consume_int (renderInt i ++ rest) = some (i, rest) := by
  unfold renderInt
  by_cases h : i < 0
  · rw [if_pos h]
    have h1 := consume_int_neg_digits (natDigits i.natAbs) rest (natDigits_allDigits _)
      (natDigits_ne_nil _) hstop
      (by rw [natDigits_val]; simp only [i32Min] at hi1 ⊢; omega)
    rw [natDigits_val] at h1
    have habs : -((i.natAbs : ℤ)) = i := by omega
    rw [habs] at h1
    exact h1
  · rw [if_neg h]
    have h1 := consume_int_digits (natDigits i.natAbs) rest (natDigits_allDigits _)
      (natDigits_ne_nil _) hstop
      (by rw [natDigits_val]; simp only [i32Max] at hi2 ⊢; omega)
    rw [natDigits_val] at h1
    have habs : ((i.natAbs : ℤ)) = i := by omega
    rw [habs] at h1
    exact h1

theorem consume_exponent_renderSigned (e : Int) (he1 : i32Min ≤ e) (he2 : e ≤ i32Max) :
    consume_exponent ('E' :: renderSigned e) = some (some e, []) := by
  unfold renderSigned
  by_cases h : 0 ≤ e
  · rw [if_pos h]
    have hsh : ('E' :: '+' :: natDigits e.natAbs) =
        'E' :: '+' :: (natDigits e.natAbs ++ ([] : List Char)) := by simp
    rw [hsh, consume_exponent_sign_digits 'E' '+' _ [] (by decide) (by decide)
      (natDigits_allDigits _) (by intro d hd; simp at hd)]
    rw [parseI32_pos_digits _ (natDigits_allDigits _) (natDigits_ne_nil _)
      (by rw [natDigits_val]; simp only [i32Max] at he2 ⊢; omega)]
    rw [natDigits_val]
    have habs : ((e.natAbs : ℤ)) = e := by omega
    rw [habs]
  · rw [if_neg h]
    have hsh : ('E' :: '-' :: natDigits e.natAbs) =
        'E' :: '-' :: (natDigits e.natAbs ++ ([] : List Char)) := by simp
    rw [hsh, consume_exponent_sign_digits 'E' '-' _ [] (by decide) (by decide)
      (natDigits_allDigits _) (by intro d hd; simp at hd)]
    rw [parseI32_neg_digits _ (natDigits_allDigits _) (natDigits_ne_nil _)
      (by rw [natDigits_val]; simp only [i32Min] at he1 ⊢; omega)]
    rw [natDigits_val]
    have habs : -((e.natAbs : ℤ)) = e := by omega
    rw [habs]
theorem renderFloat_rescan (i : Int) (q : ℚ) (hi1 : i32Min ≤ i) (hi2 : i ≤ i32Max)
    (hq0 : 0 ≤ q) (hq1 : q < 1) (hK : ∃ K, q.den ∣ 10 ^ K) (rest : List Char)
    (hstop : ∀ c ∈ rest.head?,
      isDigitChar c = false ∧ isSignChar c = false ∧ isDotChar c = false) :
    ∃ r1 fr', consume_int (renderFloat (combine i q) ++ rest) = some (i, r1) ∧
      consume_frac r1 = (fr', rest) ∧
      (if 0 ≤ i then (i : ℚ) + fr'.getD 0 else (i : ℚ) - fr'.getD 0) =
        (if 0 ≤ i then (i : ℚ) + q else (i : ℚ) - q) := by
  by_cases hi : 0 ≤ i
  · have hvpos : combine i q = (i : ℚ) + q := by rw [combine_eq, if_pos hi]
    have hnn : 0 ≤ (i : ℚ) + q := by
      have hc : (0 : ℚ) ≤ (i : ℚ) := by exact_mod_cast hi
      linarith
    have hren : renderFloat (combine i q) = renderPos ((i : ℚ) + q) := by
      unfold renderFloat
      rw [hvpos, if_neg (not_lt.mpr hnn)]
    rcases renderPos_int_add i q ((i : ℚ) + q) rfl hi hq0 hq1 hK with
      ⟨hqz, hrp⟩ | ⟨ds, hrp, hall, hne, hpf⟩
    · refine ⟨rest, none, ?_, ?_, ?_⟩
      · rw [hren, hrp]
        have h1 := consume_int_digits (natDigits i.toNat) rest (natDigits_allDigits _)
          (natDigits_ne_nil _) (fun c hc => ⟨(hstop c hc).1, (hstop c hc).2.1⟩)
          (by rw [natDigits_val]; simp only [i32Max] at hi2 ⊢; omega)
        rw [natDigits_val] at h1
        have habs : ((i.toNat : ℤ)) = i := by omega
        rw [habs] at h1
        exact h1
      · exact consume_frac_nodot rest (fun c hc => (hstop c hc).2.2)
      · simp [hi, hqz]
    · refine ⟨'.' :: (ds ++ rest), some q, ?_, ?_, ?_⟩
      · rw [hren, hrp, List.append_assoc, List.cons_append]
        have h1 := consume_int_digits (natDigits i.toNat) ('.' :: (ds ++ rest))
          (natDigits_allDigits _) (natDigits_ne_nil _)
          (by intro c hc; simp at hc; subst hc; exact ⟨by decide, by decide⟩)
          (by rw [natDigits_val]; simp only [i32Max] at hi2 ⊢; omega)
        rw [natDigits_val] at h1
        have habs : ((i.toNat : ℤ)) = i := by omega
        rw [habs] at h1
        exact h1
      · rw [consume_frac_dot ds rest hall (fun c hc => (hstop c hc).1), hpf]
      · rfl
  · have hvneg : combine i q = (i : ℚ) - q := by rw [combine_eq, if_neg hi]
    have hineg : i < 0 := not_le.mp hi
    have hvlt : combine i q < 0 := by
      rw [hvneg]
      have hc : (i : ℚ) ≤ -1 := by exact_mod_cast (by omega : i ≤ -1)
      linarith
    have hnegv : -(combine i q) = ((-i : ℤ) : ℚ) + q := by
      rw [hvneg]
      push_cast
      ring
    have hren : renderFloat (combine i q) = '-' :: renderPos (((-i : ℤ) : ℚ) + q) := by
      unfold renderFloat
      rw [if_pos hvlt, hnegv]
    rcases renderPos_int_add (-i) q (((-i : ℤ) : ℚ) + q) rfl (by omega) hq0 hq1 hK with
      ⟨hqz, hrp⟩ | ⟨ds, hrp, hall, hne, hpf⟩
    · refine ⟨rest, none, ?_, ?_, ?_⟩
      · rw [hren, hrp]
        have h1 := consume_int_neg_digits (natDigits (-i).toNat) rest (natDigits_allDigits _)
          (natDigits_ne_nil _) (fun c hc => ⟨(hstop c hc).1, (hstop c hc).2.1⟩)
          (by rw [natDigits_val]; simp only [i32Min] at hi1 ⊢; omega)
        rw [natDigits_val] at h1
        have habs : -(((-i).toNat : ℤ)) = i := by omega
        rw [habs] at h1
        exact h1
      · exact consume_frac_nodot rest (fun c hc => (hstop c hc).2.2)
      · simp [hi, hqz]
    · refine ⟨'.' :: (ds ++ rest), some q, ?_, ?_, ?_⟩
      · rw [hren, hrp, List.cons_append, List.append_assoc, List.cons_append]
        have h1 := consume_int_neg_digits (natDigits (-i).toNat) ('.' :: (ds ++ rest))
          (natDigits_allDigits _) (natDigits_ne_nil _)
          (by intro c hc; simp at hc; subst hc; exact ⟨by decide, by decide⟩)
          (by rw [natDigits_val]; simp only [i32Min] at hi1 ⊢; omega)
        rw [natDigits_val] at h1
        have habs : -(((-i).toNat : ℤ)) = i := by omega
        rw [habs] at h1
        exact h1
      · rw [consume_frac_dot ds rest hall (fun c hc => (hstop c hc).1), hpf]
      · rfl
/-- The idealized contrast for the round-trip question: were the `f32`
arithmetic in `Display` exact (`combine`/`renderFloat` in place of
`fcombineF32`/`displayF32`), rendering a `Number` with integer part and
exponent in `i32` range and fraction in `[0, 1)` with a finite decimal
expansion, and then rescanning, would preserve the effective value.  The
decimal render/rescan machinery is therefore lossless; the failure
exhibited below for claim C8 comes from the `f32` rounding alone. -/
theorem combine_render_rescan_exact (n : Number)
    (hint : i32Min ≤ n.int ∧ n.int ≤ i32Max)
    (hexp : ∀ e ∈ n.exponent, i32Min ≤ e ∧ e ≤ i32Max)
    (hfrac : ∀ q ∈ n.frac, 0 ≤ q ∧ q < 1 ∧ ∃ K, q.den ∣ 10 ^ K) :
    ∃ n', consume_number (Number.render n) = some (n', []) ∧ effValue n' = effValue n := by
  obtain ⟨i, f, e⟩ := n
  obtain ⟨hi1, hi2⟩ := hint
  cases f with
  | none =>
    cases e with
    | none =>
      refine ⟨⟨i, none, none⟩, ?_, rfl⟩
      show consume_number (renderInt i) = _
      have h1 : consume_int (renderInt i ++ []) = some (i, []) :=
        consume_int_renderInt i hi1 hi2 [] (by intro c hc; simp at hc)
      rw [List.append_nil] at h1
      simp only [consume_number, h1]
      rfl
    | some ex =>
      obtain ⟨he1, he2⟩ := hexp ex rfl
      refine ⟨⟨i, none, some ex⟩, ?_, rfl⟩
      show consume_number (renderInt i ++ 'E' :: renderSigned ex) = _
      have h1 : consume_int (renderInt i ++ 'E' :: renderSigned ex) =
          some (i, 'E' :: renderSigned ex) :=
        consume_int_renderInt i hi1 hi2 _
          (by intro c hc; simp at hc; subst hc; exact ⟨by decide, by decide⟩)
      have h2 : consume_frac ('E' :: renderSigned ex) = (none, 'E' :: renderSigned ex) :=
        consume_frac_nodot _ (by intro c hc; simp at hc; subst hc; decide)
      have h3 : consume_exponent ('E' :: renderSigned ex) = some (some ex, []) :=
        consume_exponent_renderSigned ex he1 he2
      simp only [consume_number, h1, h2, h3]
  | some q =>
    obtain ⟨hq0, hq1, hK⟩ := hfrac q rfl
    cases e with
    | none =>
      obtain ⟨r1, fr', hci, hcf, hval⟩ := renderFloat_rescan i q hi1 hi2 hq0 hq1 hK []
        (by intro c hc; simp at hc)
      refine ⟨⟨i, fr', none⟩, ?_, ?_⟩
      · show consume_number (renderFloat (combine i q)) = _
        have hci' : consume_int (renderFloat (combine i q)) = some (i, r1) := by
          rw [← List.append_nil (renderFloat (combine i q))]
          exact hci
        simp only [consume_number, hci', hcf]
        rfl
      · simp only [effValue]
        rw [hval]
        rfl
    | some ex =>
      obtain ⟨he1, he2⟩ := hexp ex rfl
      obtain ⟨r1, fr', hci, hcf, hval⟩ := renderFloat_rescan i q hi1 hi2 hq0 hq1 hK
        ('E' :: renderSigned ex)
        (by intro c hc; simp at hc; subst hc; exact ⟨by decide, by decide, by decide⟩)
      refine ⟨⟨i, fr', some ex⟩, ?_, ?_⟩
      · show consume_number (renderFloat (combine i q) ++ 'E' :: renderSigned ex) = _
        have h3 : consume_exponent ('E' :: renderSigned ex) = some (some ex, []) :=
          consume_exponent_renderSigned ex he1 he2
        simp only [consume_number, hci, hcf, h3]
      · simp only [effValue]
        rw [hval]
        rfl

/-! ## Claim C8: the f32 arithmetic in `Display` breaks the round trip -/

theorem qadd_eq (x y : ℚ) : qadd x y = x + y := (Rat.add_num_den x y).symm

theorem qsub_eq (x y : ℚ) : qsub x y = x - y := by
  have h : x - y = qadd x (-y) := by rw [sub_eq_add_neg, ← qadd_eq]
  rw [h]
  unfold qadd qsub
  rw [Rat.neg_num, Rat.neg_den]
  congr 1
  ring

/-- Claim C8, counterexample: the round trip fails at the `Number` the
scanner produces from `16777216.5` (integer part `16777216 = 2^24`,
fraction `0.5`): `Display` computes `(16777216 as f32) + 0.5f32`, and the
`f32` sum rounds to `16777216` (ties to even at the last representable
integer step), so the text printed is `16777216`; rescanning that text
yields the `Number` with integer part `16777216` and no fraction, whose
effective value `16777216` differs from the original effective value
`16777216.5`. -/
theorem number_C8_roundtrip_fails :
    consume_number "16777216.5".data =
      some (⟨16777216, some (Rat.divInt 5 10), none⟩, []) ∧
    Number.renderF32 ⟨16777216, some (Rat.divInt 5 10), none⟩ = some "16777216".data ∧
    consume_number "16777216".data = some (⟨16777216, none, none⟩, []) ∧
    effValue ⟨16777216, none, none⟩ ≠ effValue ⟨16777216, some (Rat.divInt 5 10), none⟩ := by
  refine ⟨rfl, rfl, rfl, ?_⟩
  have h : (Rat.divInt 5 10) = (5 : ℚ) / 10 := Rat.divInt_eq_div 5 10
  simp only [effValue, h, Option.getD_none, Option.getD_some, zpow_zero, mul_one]
  norm_num

/-- Claim C8, amended: the fraction `0.5` is itself exactly representable
(`roundF32` fixes it), and the loss happens in the addition the `Display`
arm performs: the correctly rounded `f32` combination of `16777216` and
`0.5` is exactly `16777216`, the shortest-round-trip formatter prints
`16777216`, and rescanning gives a fraction-free `Number` of effective
value `16777216`. -/
theorem number_C8_f32_roundtrip :
    roundF32 (Rat.divInt 5 10) = some (Rat.divInt 5 10) ∧
    fcombineF32 16777216 (Rat.divInt 5 10) = some (Rat.divInt 16777216 1) ∧
    Number.renderF32 ⟨16777216, some (Rat.divInt 5 10), none⟩ = some "16777216".data ∧
    consume_number "16777216".data = some (⟨16777216, none, none⟩, []) ∧
    effValue ⟨16777216, none, none⟩ = Rat.divInt 16777216 1 := by
  refine ⟨rfl, rfl, rfl, rfl, ?_⟩
  have h : (Rat.divInt 16777216 1) = (16777216 : ℚ) / 1 := Rat.divInt_eq_div 16777216 1
  simp only [effValue, h, Option.getD_none, zpow_zero, mul_one]
  norm_num
